import Mathlib

/-!
SyntaxTextCtrl: a shallow embedding of the editing core.

The widget of `SyntaxTextCtrl.cpp` is embedded as a record of its data members
and one Lean function per member function.  Conventions:

* `wxString` is a list of characters; `insert`, `erase` and `Mid` are defined by
  recursion on the position, as the string library does them.
* `size_t` members are natural numbers.  Every value stored in them is bounded
  by a string length, so no wrap-around is involved.
* `int` is 32 bits wide: the narrowing cast `(int)x` is `toInt32 x`, and the
  sum `(int)m_cursorPos + delta` of MoveCursor is reduced to 32 bits in the same
  way (two's-complement wrap-around).  The pixel arithmetic of the view stays
  far from the range of `int` and is taken in the integers.
  `long` holds every string length, so `(long)m_text.length()` is exact.
* `std::deque` is a list whose head is the front; `push_back` appends at the
  end, `pop_front` drops the head, `back`/`pop_back` act on the last entry.
* Text measurement and the client size come from the host toolkit; they are
  passed to the functions that use them as a `Host` record.
* A regular expression is represented by what `std::wsregex_iterator` yields
  for it on a text: the successive `(position, length)` pairs.
* `Refresh`, `SetFocus` and the blink timer have no effect on the members
  embedded here.
-/

/-- Text: the content of a wxString, one character per element. -/
abbrev wxString := List Char

/-- Colour value as red, green and blue components. -/
structure wxColour where
  r : Nat
  g : Nat
  b : Nat
deriving DecidableEq, Repr

/-- Black, the value of `*wxBLACK`. -/
def wxBLACK : wxColour := ⟨0, 0, 0⟩

/-- String insertion `s.insert(pos, str)`: `str` goes in front of the character
at index `pos`. -/
def wxString.insert : Nat → wxString → wxString → wxString
  | 0, str, s => str ++ s
  | _ + 1, str, [] => str
  | pos + 1, str, c :: s => c :: wxString.insert pos str s

/-- String erasure `s.erase(pos, n)`: removes up to `n` characters starting at
index `pos`. -/
def wxString.erase : Nat → Nat → wxString → wxString
  | 0, n, s => s.drop n
  | _ + 1, _, [] => []
  | pos + 1, n, c :: s => c :: wxString.erase pos n s

/-- Substring `s.Mid(first, count)`. -/
def wxString.Mid (first count : Nat) (s : wxString) : wxString :=
  (s.drop first).take count

/-- Character access `s[i]`; reading at the end gives the terminator. -/
def wxString.at (s : wxString) (i : Nat) : Char :=
  s.getD i (Char.ofNat 0)

/-- The narrowing conversion to a 32-bit `int`. -/
def toInt32 (x : Int) : Int :=
  (x + 2147483648) % 4294967296 - 2147483648

/-- What the host toolkit supplies: the pixel width of a string in the current
font (`dc.GetTextExtent(str).GetWidth()`) and the client width
(`GetClientSize().GetWidth()`). -/
structure Host where
  GetTextExtentWidth : wxString → Int
  GetClientWidth : Int

/-- A highlighting rule.  `pattern` gives, for a text, the matches that
`std::wsregex_iterator` enumerates for the rule's regular expression, each as
`(position, length)`. -/
structure SyntaxRule where
  pattern : wxString → List (Nat × Nat)
  colorFunc : wxString → wxColour

/-- The list box of the completion popup: its strings and the selected index
(`none` for `wxNOT_FOUND`). -/
structure CompletionPopup where
  items : List wxString
  selection : Option Nat
deriving DecidableEq, Repr

namespace CompletionPopup

/-- Replaces the candidates; the first one becomes selected. -/
def SetCompletions (completions : List wxString) (_p : CompletionPopup) : CompletionPopup :=
  { items := completions, selection := if completions.length > 0 then some 0 else none }

/-- The selected candidate, or the empty string when nothing is selected. -/
def GetSelectedCompletion (p : CompletionPopup) : wxString :=
  match p.selection with
  | some sel => p.items.getD sel []
  | none => []

/-- Moves the selection one entry down unless it is on the last entry. -/
def SelectNext (p : CompletionPopup) : CompletionPopup :=
  let sel : Int := match p.selection with
    | some i => (i : Int)
    | none => -1
  if sel < (p.items.length : Int) - 1 then { p with selection := some (sel + 1).toNat } else p

/-- Moves the selection one entry up unless it is on the first entry. -/
def SelectPrevious (p : CompletionPopup) : CompletionPopup :=
  match p.selection with
  | some i => if i > 0 then { p with selection := some (i - 1) } else p
  | none => p

end CompletionPopup

/-- A history entry: a snapshot of the text and the cursor. -/
structure SyntaxTextCtrl.TextState where
  text : wxString
  cursorPos : Nat
deriving DecidableEq, Repr

/-- A run of text with one colour. -/
structure SyntaxTextCtrl.ColoredSegment where
  start : Nat
  length : Nat
  color : wxColour
deriving DecidableEq, Repr

/-- The data members of the widget. -/
structure SyntaxTextCtrl where
  m_text : wxString
  m_cursorPos : Nat
  m_selectionStart : Nat
  m_selectionEnd : Nat
  m_syntaxRules : List SyntaxRule
  m_completionFunc : Option (wxString → List wxString)
  m_completionPopup : Option CompletionPopup
  m_showingCompletions : Bool
  m_undoStack : List SyntaxTextCtrl.TextState
  m_redoStack : List SyntaxTextCtrl.TextState
  m_defaultTextColor : wxColour
  m_leftMargin : Int
  m_topMargin : Int
  m_cursorVisible : Bool
  m_scrollOffset : Int
  m_dragging : Bool

namespace SyntaxTextCtrl

/-- Capacity of each history stack. -/
def MAX_UNDO_LEVELS : Nat := 100

/-- The constructor: the cursor and both selection ends are at the end of the
initial value, both history stacks are empty. -/
def construct (value : wxString) : SyntaxTextCtrl :=
  { m_text := value
    m_cursorPos := value.length
    m_selectionStart := value.length
    m_selectionEnd := value.length
    m_syntaxRules := []
    m_completionFunc := none
    m_completionPopup := none
    m_showingCompletions := false
    m_undoStack := []
    m_redoStack := []
    m_defaultTextColor := wxBLACK
    m_leftMargin := 5
    m_topMargin := 5
    m_cursorVisible := true
    m_scrollOffset := 0
    m_dragging := false }

/-- True when the two selection ends differ. -/
def HasSelection (s : SyntaxTextCtrl) : Bool :=
  s.m_selectionStart != s.m_selectionEnd

/-- True when the undo stack has an entry. -/
def CanUndo (s : SyntaxTextCtrl) : Bool :=
  !s.m_undoStack.isEmpty

/-- True when the redo stack has an entry. -/
def CanRedo (s : SyntaxTextCtrl) : Bool :=
  !s.m_redoStack.isEmpty

/-- Pushes an entry at the back of a history stack and drops the front entry
when the size exceeds `MAX_UNDO_LEVELS`. -/
def pushCapped (stack : List TextState) (e : TextState) : List TextState :=
  let stack := stack ++ [e]
  if stack.length > MAX_UNDO_LEVELS then stack.tail else stack

/-- Adjusts the horizontal scroll offset so that the cursor is in view. -/
def EnsureCursorVisible (dc : Host) (s : SyntaxTextCtrl) : SyntaxTextCtrl :=
  let beforeCursor := wxString.Mid 0 s.m_cursorPos s.m_text
  let cursorPixelPos := dc.GetTextExtentWidth beforeCursor
  let visibleWidth := dc.GetClientWidth - s.m_leftMargin - 10
  let cursorScreenPos := cursorPixelPos - s.m_scrollOffset
  let scroll :=
    if cursorScreenPos > visibleWidth then cursorPixelPos - visibleWidth
    else if cursorScreenPos < 0 then cursorPixelPos
    else s.m_scrollOffset
  { s with m_scrollOffset := if scroll < 0 then 0 else scroll }

/-- Hides the completion popup when it is showing. -/
def HideCompletions (s : SyntaxTextCtrl) : SyntaxTextCtrl :=
  if s.m_completionPopup.isSome && s.m_showingCompletions then
    { s with m_showingCompletions := false }
  else s

/-- Shows the completion popup with the given candidates; an empty list hides
it. -/
def ShowCompletions (completions : List wxString) (s : SyntaxTextCtrl) : SyntaxTextCtrl :=
  if completions.isEmpty then HideCompletions s
  else
    let popup : CompletionPopup := match s.m_completionPopup with
      | some p => p
      | none => { items := [], selection := none }
    { s with
      m_completionPopup := some (popup.SetCompletions completions)
      m_showingCompletions := true }

/-- Queries the completion function with the text up to the cursor. -/
def UpdateCompletions (s : SyntaxTextCtrl) : SyntaxTextCtrl :=
  match s.m_completionFunc with
  | none => s
  | some f =>
    let textToCursor := wxString.Mid 0 s.m_cursorPos s.m_text
    let completions := f textToCursor
    if !completions.isEmpty then ShowCompletions completions s else HideCompletions s

/-- Pushes the current text and cursor on the undo stack and clears the redo
stack. -/
def SaveUndoState (s : SyntaxTextCtrl) : SyntaxTextCtrl :=
  { s with
    m_undoStack := pushCapped s.m_undoStack ⟨s.m_text, s.m_cursorPos⟩
    m_redoStack := [] }

/-- Replaces the whole text. -/
def SetValue (dc : Host) (value : wxString) (s : SyntaxTextCtrl) : SyntaxTextCtrl :=
  let s := SaveUndoState s
  EnsureCursorVisible dc
    { s with
      m_text := value
      m_cursorPos := value.length
      m_selectionStart := value.length
      m_selectionEnd := value.length
      m_scrollOffset := 0 }

/-- Clamp of a `long` offset to the text: `max(0L, min(x, (long)length))`. -/
def clampOffset (x : Int) (length : Nat) : Nat :=
  (max 0 (min x (length : Int))).toNat

/-- Sets both selection ends, clamped to the text; the cursor follows the
second one. -/
def SetSelection (from_ to_ : Int) (s : SyntaxTextCtrl) : SyntaxTextCtrl :=
  let selStart := clampOffset from_ s.m_text.length
  let selEnd := clampOffset to_ s.m_text.length
  { s with m_selectionStart := selStart, m_selectionEnd := selEnd, m_cursorPos := selEnd }

/-- The selection as an ordered pair. -/
def GetSelection (s : SyntaxTextCtrl) : Int × Int :=
  ((min s.m_selectionStart s.m_selectionEnd : Nat), (max s.m_selectionStart s.m_selectionEnd : Nat))

/-- Undo: the current state goes on the redo stack, the latest undo entry
becomes the current state. -/
def Undo (s : SyntaxTextCtrl) : SyntaxTextCtrl :=
  if !CanUndo s then s
  else
    match s.m_undoStack.getLast? with
    | none => s
    | some state =>
      HideCompletions
        { s with
          m_redoStack := pushCapped s.m_redoStack ⟨s.m_text, s.m_cursorPos⟩
          m_undoStack := s.m_undoStack.dropLast
          m_text := state.text
          m_cursorPos := state.cursorPos
          m_selectionStart := state.cursorPos
          m_selectionEnd := state.cursorPos }

/-- Redo: the current state goes on the undo stack, the latest redo entry
becomes the current state. -/
def Redo (s : SyntaxTextCtrl) : SyntaxTextCtrl :=
  if !CanRedo s then s
  else
    match s.m_redoStack.getLast? with
    | none => s
    | some state =>
      HideCompletions
        { s with
          m_undoStack := pushCapped s.m_undoStack ⟨s.m_text, s.m_cursorPos⟩
          m_redoStack := s.m_redoStack.dropLast
          m_text := state.text
          m_cursorPos := state.cursorPos
          m_selectionStart := state.cursorPos
          m_selectionEnd := state.cursorPos }

/-- Inserts a string at the cursor. -/
def InsertText (dc : Host) (text : wxString) (s : SyntaxTextCtrl) : SyntaxTextCtrl :=
  let cursor := s.m_cursorPos + text.length
  EnsureCursorVisible dc
    { s with
      m_text := wxString.insert s.m_cursorPos text s.m_text
      m_cursorPos := cursor
      m_selectionStart := cursor
      m_selectionEnd := cursor
      m_redoStack := [] }

/-- Removes the selected range, if any. -/
def DeleteSelection (s : SyntaxTextCtrl) : SyntaxTextCtrl :=
  if !HasSelection s then s
  else
    let start := min s.m_selectionStart s.m_selectionEnd
    let end_ := max s.m_selectionStart s.m_selectionEnd
    { s with
      m_text := wxString.erase start (end_ - start) s.m_text
      m_cursorPos := start
      m_selectionStart := start
      m_selectionEnd := start
      m_redoStack := [] }

/-- Removes one character after (`forward`) or before the cursor. -/
def DeleteChar (dc : Host) (forward : Bool) (s : SyntaxTextCtrl) : SyntaxTextCtrl :=
  let s :=
    if forward && s.m_cursorPos < s.m_text.length then
      { s with m_text := wxString.erase s.m_cursorPos 1 s.m_text }
    else if !forward && s.m_cursorPos > 0 then
      { s with
        m_text := wxString.erase (s.m_cursorPos - 1) 1 s.m_text
        m_cursorPos := s.m_cursorPos - 1 }
    else s
  EnsureCursorVisible dc
    { s with
      m_selectionStart := s.m_cursorPos
      m_selectionEnd := s.m_cursorPos
      m_redoStack := [] }

/-- Moves the cursor by `delta`; with `select` the selection is extended,
without it a selection is first collapsed to its edge in the direction of
travel. -/
def MoveCursor (dc : Host) (delta : Int) (select : Bool) (s : SyntaxTextCtrl) : SyntaxTextCtrl :=
  let s :=
    if !select && HasSelection s && delta != 0 then
      let cursor :=
        if delta < 0 then min s.m_selectionStart s.m_selectionEnd
        else max s.m_selectionStart s.m_selectionEnd
      { s with m_cursorPos := cursor, m_selectionStart := cursor, m_selectionEnd := cursor }
    else
      let newPos : Int := toInt32 (toInt32 s.m_cursorPos + delta)
      let newPos : Int := max 0 (min newPos (toInt32 s.m_text.length))
      let cursor := newPos.toNat
      if !select then
        { s with m_cursorPos := cursor, m_selectionStart := cursor, m_selectionEnd := cursor }
      else
        { s with m_cursorPos := cursor, m_selectionEnd := cursor }
  EnsureCursorVisible dc { s with m_cursorVisible := true }

/-- Places the cursor at an absolute offset, clamped to the text. -/
def SetCursorPos (dc : Host) (pos : Nat) (select : Bool) (s : SyntaxTextCtrl) : SyntaxTextCtrl :=
  let cursor := min pos s.m_text.length
  let s :=
    if !select then
      { s with m_cursorPos := cursor, m_selectionStart := cursor, m_selectionEnd := cursor }
    else
      { s with m_cursorPos := cursor, m_selectionEnd := cursor }
  EnsureCursorVisible dc { s with m_cursorVisible := true }

/-- Selects the whole text. -/
def SelectAll (s : SyntaxTextCtrl) : SyntaxTextCtrl :=
  { s with
    m_selectionStart := 0
    m_selectionEnd := s.m_text.length
    m_cursorPos := s.m_text.length }

/-- The backward scan of `AcceptCompletion`: steps `wordStart` down while it is
positive and the character before it is not a space. -/
def findWordStart (text : wxString) : Nat → Nat
  | 0 => 0
  | wordStart + 1 =>
    if wxString.at text wordStart != ' ' then findWordStart text wordStart else wordStart + 1

/-- Replaces the word before the cursor by the selected completion. -/
def AcceptCompletion (dc : Host) (s : SyntaxTextCtrl) : SyntaxTextCtrl :=
  match s.m_completionPopup with
  | none => s
  | some popup =>
    if !s.m_showingCompletions then s
    else
      let completion := popup.GetSelectedCompletion
      let s :=
        if !completion.isEmpty then
          let s := SaveUndoState s
          let wordStart := findWordStart s.m_text s.m_cursorPos
          InsertText dc completion
            { s with
              m_text := wxString.erase wordStart (s.m_cursorPos - wordStart) s.m_text
              m_cursorPos := wordStart }
        else s
      HideCompletions s

/-- The inner scan of the highlighter: is any character of the range
`[start, start + length)` already claimed? -/
def alreadyMatched (matched : List Bool) (start length : Nat) : Bool :=
  (List.range' start length).any (fun i => matched.getD i false)

/-- Claims every character of the range `[start, start + length)`. -/
def markMatched (matched : List Bool) (start length : Nat) : List Bool :=
  (List.range' start length).foldl (fun m i => m.set i true) matched

/-- One match of a rule: skipped when it touches a claimed character, recorded
and claimed otherwise. -/
def applyMatch (text : wxString) (rule : SyntaxRule)
    (acc : List ColoredSegment × List Bool) (m : Nat × Nat) : List ColoredSegment × List Bool :=
  if alreadyMatched acc.2 m.1 m.2 then acc
  else
    (acc.1 ++ [⟨m.1, m.2, rule.colorFunc (wxString.Mid m.1 m.2 text)⟩], markMatched acc.2 m.1 m.2)

/-- All matches of one rule, in iteration order. -/
def applyRule (text : wxString) (acc : List ColoredSegment × List Bool) (rule : SyntaxRule) :
    List ColoredSegment × List Bool :=
  (rule.pattern text).foldl (applyMatch text rule) acc

/-- The recorded segments of all rules, in registration order. -/
def collectSegments (text : wxString) (rules : List SyntaxRule) : List ColoredSegment :=
  (rules.foldl (applyRule text) ([], List.replicate text.length false)).1

/-- The sort by start offset.  The order `std::sort` gives to segments with
equal starts is unspecified; here they keep their recording order. -/
def sortSegments (segments : List ColoredSegment) : List ColoredSegment :=
  segments.insertionSort (fun a b => a.start ≤ b.start)

/-- One step of the gap-filling walk: a default-coloured filler when the
segment starts after `pos`, then the segment itself. -/
def emitSegment (defaultColor : wxColour) (acc : List ColoredSegment × Nat) (seg : ColoredSegment) :
    List ColoredSegment × Nat :=
  let result := if acc.2 < seg.start then acc.1 ++ [⟨acc.2, seg.start - acc.2, defaultColor⟩] else acc.1
  (result ++ [seg], seg.start + seg.length)

/-- The coloured segments of the current text. -/
def GetColoredSegments (s : SyntaxTextCtrl) : List ColoredSegment :=
  if s.m_text.isEmpty then []
  else
    let segments := sortSegments (collectSegments s.m_text s.m_syntaxRules)
    let walk := segments.foldl (emitSegment s.m_defaultTextColor) ([], 0)
    if walk.2 < s.m_text.length then
      walk.1 ++ [⟨walk.2, s.m_text.length - walk.2, s.m_defaultTextColor⟩]
    else walk.1

/-- The clipboard as PasteFromClipboard meets it: it cannot be opened, it holds
no text format, or it holds a text (which may be empty). -/
inductive Clipboard where
  | unavailable
  | nonText
  | text (data : wxString)

/-- A key event: the key code, the Unicode key (0 for `WXK_NONE`) and the
modifier flags. -/
structure wxKeyEvent where
  keyCode : Int
  unicodeKey : Nat
  cmdDown : Bool
  controlDown : Bool
  shiftDown : Bool

/-- Key code of Backspace in the toolkit's `wxKeyCode` enumeration. -/
def WXK_BACK : Int := 8

/-- Key code of Tab. -/
def WXK_TAB : Int := 9

/-- Key code of Return. -/
def WXK_RETURN : Int := 13

/-- Key code of Escape. -/
def WXK_ESCAPE : Int := 27

/-- Key code of the space bar, the first printable character. -/
def WXK_SPACE : Int := 32

/-- Key code of Delete. -/
def WXK_DELETE : Int := 127

/-- Key code of End. -/
def WXK_END : Int := 312

/-- Key code of Home. -/
def WXK_HOME : Int := 313

/-- Key code of the left arrow. -/
def WXK_LEFT : Int := 314

/-- Key code of the up arrow. -/
def WXK_UP : Int := 315

/-- Key code of the right arrow. -/
def WXK_RIGHT : Int := 316

/-- Key code of the down arrow. -/
def WXK_DOWN : Int := 317

/-- Key code of Enter on the numeric pad. -/
def WXK_NUMPAD_ENTER : Int := 370

/-- A `while (cond) body;` loop run for at most the given number of iterations:
`none` when the condition still holds after them. -/
def whileLoop (cond : SyntaxTextCtrl → Bool) (body : SyntaxTextCtrl → SyntaxTextCtrl) :
    Nat → SyntaxTextCtrl → Option SyntaxTextCtrl
  | 0, s => if cond s then none else some s
  | fuel + 1, s => if cond s then whileLoop cond body fuel (body s) else some s

/-- Pastes the clipboard text in place of the selection. -/
def PasteFromClipboard (dc : Host) (clipboard : Clipboard) (s : SyntaxTextCtrl) : SyntaxTextCtrl :=
  match clipboard with
  | .unavailable => s
  | .nonText => s
  | .text data =>
    UpdateCompletions (InsertText dc data (DeleteSelection (SaveUndoState s)))

/-- The text that CopyToClipboard puts on the clipboard, if any; the widget
itself is not changed. -/
def CopyToClipboard (s : SyntaxTextCtrl) : Option wxString :=
  if !HasSelection s then none
  else
    let start := min s.m_selectionStart s.m_selectionEnd
    let end_ := max s.m_selectionStart s.m_selectionEnd
    some (wxString.Mid start (end_ - start) s.m_text)

/-- The character handler: Return and Tab accept a showing completion, a
printable character replaces the selection. -/
def OnChar (dc : Host) (event : wxKeyEvent) (s : SyntaxTextCtrl) : SyntaxTextCtrl :=
  let keyCode := event.keyCode
  if keyCode == WXK_RETURN || keyCode == WXK_NUMPAD_ENTER then
    if s.m_showingCompletions && s.m_completionPopup.isSome then AcceptCompletion dc s else s
  else if keyCode == WXK_TAB then
    if s.m_showingCompletions && s.m_completionPopup.isSome then AcceptCompletion dc s else s
  else if event.cmdDown then s
  else
    let unicodeKey : Int := if event.unicodeKey == 0 then keyCode else (event.unicodeKey : Int)
    if unicodeKey ≥ WXK_SPACE then
      let s := SaveUndoState s
      let s := DeleteSelection s
      let s := InsertText dc [Char.ofNat unicodeKey.toNat] s
      let s := UpdateCompletions s
      { s with m_cursorVisible := true }
    else s

/-- Loop condition of Ctrl+Left, first loop: a space before the cursor. -/
def spaceBeforeCursor (s : SyntaxTextCtrl) : Bool :=
  decide (s.m_cursorPos > 0) && wxString.at s.m_text (s.m_cursorPos - 1) == ' '

/-- Loop condition of Ctrl+Left, second loop: a non-space before the cursor. -/
def wordBeforeCursor (s : SyntaxTextCtrl) : Bool :=
  decide (s.m_cursorPos > 0) && wxString.at s.m_text (s.m_cursorPos - 1) != ' '

/-- Loop condition of Ctrl+Right, first loop: a non-space at the cursor. -/
def wordAtCursor (s : SyntaxTextCtrl) : Bool :=
  decide (s.m_cursorPos < s.m_text.length) && wxString.at s.m_text s.m_cursorPos != ' '

/-- Loop condition of Ctrl+Right, second loop: a space at the cursor. -/
def spaceAtCursor (s : SyntaxTextCtrl) : Bool :=
  decide (s.m_cursorPos < s.m_text.length) && wxString.at s.m_text s.m_cursorPos == ' '

/-- The key handler.  `fuel` bounds the iterations of each word-navigation
loop; the result is `none` when a loop does not finish within it. -/
def OnKeyDown (dc : Host) (clipboard : Clipboard) (fuel : Nat) (event : wxKeyEvent)
    (s : SyntaxTextCtrl) : Option SyntaxTextCtrl :=
  let keyCode := event.keyCode
  let shiftDown := event.shiftDown
  let accelDown := event.cmdDown || event.controlDown
  let popupShown := s.m_showingCompletions && s.m_completionPopup.isSome
  if popupShown && keyCode == WXK_UP then
    some { s with m_completionPopup := s.m_completionPopup.map CompletionPopup.SelectPrevious }
  else if popupShown && keyCode == WXK_DOWN then
    some { s with m_completionPopup := s.m_completionPopup.map CompletionPopup.SelectNext }
  else if popupShown && keyCode == WXK_ESCAPE then some (HideCompletions s)
  else if accelDown && keyCode == 90 && !shiftDown then some (Undo s)
  else if (accelDown && keyCode == 89) || (accelDown && shiftDown && keyCode == 90) then
    some (Redo s)
  else if accelDown && keyCode == 67 then some s
  else if accelDown && keyCode == 86 then some (PasteFromClipboard dc clipboard s)
  else if accelDown && keyCode == 65 then some (SelectAll s)
  else if keyCode == WXK_BACK then
    if HasSelection s then some (UpdateCompletions (DeleteSelection (SaveUndoState s)))
    else if s.m_cursorPos > 0 then some (UpdateCompletions (DeleteChar dc false (SaveUndoState s)))
    else some s
  else if keyCode == WXK_DELETE then
    if HasSelection s then some (UpdateCompletions (DeleteSelection (SaveUndoState s)))
    else if s.m_cursorPos < s.m_text.length then
      some (UpdateCompletions (DeleteChar dc true (SaveUndoState s)))
    else some s
  else if keyCode == WXK_LEFT then
    if event.controlDown then
      ((whileLoop spaceBeforeCursor (MoveCursor dc (-1) shiftDown) fuel s).bind
        (whileLoop wordBeforeCursor (MoveCursor dc (-1) shiftDown) fuel)).map HideCompletions
    else some (HideCompletions (MoveCursor dc (-1) shiftDown s))
  else if keyCode == WXK_RIGHT then
    if event.controlDown then
      ((whileLoop wordAtCursor (MoveCursor dc 1 shiftDown) fuel s).bind
        (whileLoop spaceAtCursor (MoveCursor dc 1 shiftDown) fuel)).map HideCompletions
    else some (HideCompletions (MoveCursor dc 1 shiftDown s))
  else if keyCode == WXK_HOME then some (HideCompletions (SetCursorPos dc 0 shiftDown s))
  else if keyCode == WXK_END then
    some (HideCompletions (SetCursorPos dc s.m_text.length shiftDown s))
  else some s

/-! ## Vocabulary of the properties -/

/-- A segment list is a contiguous cover of `[pos, len)`: the first segment
starts at `pos`, each next one starts where the previous one ends, and the last
one ends at `len`. -/
def coversFrom : Nat → Nat → List ColoredSegment → Bool
  | pos, len, [] => pos == len
  | pos, len, seg :: rest => seg.start == pos && coversFrom (seg.start + seg.length) len rest

/-- Two segments share no character. -/
def ColoredSegment.Disjoint (a b : ColoredSegment) : Prop :=
  a.start + a.length ≤ b.start ∨ b.start + b.length ≤ a.start

/-- What holds of the recorded segments and the claim mask while the rules are
applied to a text of length `n`: the mask has one entry per character, every
recorded segment is non-empty, lies inside the text and has all its characters
claimed, and no two recorded segments share a character. -/
structure Collected (n : Nat) (acc : List ColoredSegment × List Bool) : Prop where
  mask_length : acc.2.length = n
  inside : ∀ seg ∈ acc.1, 0 < seg.length ∧ seg.start + seg.length ≤ n
  claimed : ∀ seg ∈ acc.1, ∀ i, seg.start ≤ i → i < seg.start + seg.length →
    acc.2.getD i false = true
  apart : acc.1.Pairwise ColoredSegment.Disjoint

/-- The snapshot `{m_text, m_cursorPos}` that the history functions push. -/
def snapshot (s : SyntaxTextCtrl) : TextState :=
  ⟨s.m_text, s.m_cursorPos⟩

/-- A buffer mutation of an edit. -/
inductive Mutation where
  | InsertText (text : wxString)
  | DeleteSelection
  | DeleteChar (forward : Bool)

/-- Performs a buffer mutation. -/
def Mutation.apply (dc : Host) : Mutation → SyntaxTextCtrl → SyntaxTextCtrl
  | .InsertText text, s => SyntaxTextCtrl.InsertText dc text s
  | .DeleteSelection, s => SyntaxTextCtrl.DeleteSelection s
  | .DeleteChar forward, s => SyntaxTextCtrl.DeleteChar dc forward s

/-- One edit: `SaveUndoState`, then the mutation. -/
def edit (dc : Host) (m : Mutation) (s : SyntaxTextCtrl) : SyntaxTextCtrl :=
  m.apply dc (SaveUndoState s)

/-- A sequence of edits, each with the host measurements in force when it is
made. -/
def runEdits : List (Host × Mutation) → SyntaxTextCtrl → SyntaxTextCtrl
  | [], s => s
  | e :: rest, s => runEdits rest (edit e.1 e.2 s)

/-- The undo stack after `SaveUndoState` has been called once in each of the
given widget states, in order.  The states are arbitrary in every member but
the undo stack, which is the one the previous call left. -/
def saveEach : List SyntaxTextCtrl → List TextState → List TextState
  | [], stack => stack
  | s :: rest, stack => saveEach rest (SaveUndoState { s with m_undoStack := stack }).m_undoStack

/-- The operations of the widget, with their arguments. -/
inductive Op where
  | SetValue (dc : Host) (value : wxString)
  | SetSelection (from_ to_ : Int)
  | SelectAll
  | InsertText (dc : Host) (text : wxString)
  | DeleteSelection
  | DeleteChar (dc : Host) (forward : Bool)
  | MoveCursor (dc : Host) (delta : Int) (select : Bool)
  | SetCursorPos (dc : Host) (pos : Nat) (select : Bool)
  | SaveUndoState
  | Undo
  | Redo
  | AcceptCompletion (dc : Host)
  | ShowCompletions (completions : List wxString)
  | HideCompletions
  | UpdateCompletions
  | SetCompletionFunction (func : Option (wxString → List wxString))
  | SelectNext
  | SelectPrevious

/-- Performs one operation. -/
def Op.run : Op → SyntaxTextCtrl → SyntaxTextCtrl
  | .SetValue dc value, s => SyntaxTextCtrl.SetValue dc value s
  | .SetSelection from_ to_, s => SyntaxTextCtrl.SetSelection from_ to_ s
  | .SelectAll, s => SyntaxTextCtrl.SelectAll s
  | .InsertText dc text, s => SyntaxTextCtrl.InsertText dc text s
  | .DeleteSelection, s => SyntaxTextCtrl.DeleteSelection s
  | .DeleteChar dc forward, s => SyntaxTextCtrl.DeleteChar dc forward s
  | .MoveCursor dc delta select, s => SyntaxTextCtrl.MoveCursor dc delta select s
  | .SetCursorPos dc pos select, s => SyntaxTextCtrl.SetCursorPos dc pos select s
  | .SaveUndoState, s => SyntaxTextCtrl.SaveUndoState s
  | .Undo, s => SyntaxTextCtrl.Undo s
  | .Redo, s => SyntaxTextCtrl.Redo s
  | .AcceptCompletion dc, s => SyntaxTextCtrl.AcceptCompletion dc s
  | .ShowCompletions completions, s => SyntaxTextCtrl.ShowCompletions completions s
  | .HideCompletions, s => SyntaxTextCtrl.HideCompletions s
  | .UpdateCompletions, s => SyntaxTextCtrl.UpdateCompletions s
  | .SetCompletionFunction func, s => { s with m_completionFunc := func }
  | .SelectNext, s => { s with m_completionPopup := s.m_completionPopup.map CompletionPopup.SelectNext }
  | .SelectPrevious, s =>
    { s with m_completionPopup := s.m_completionPopup.map CompletionPopup.SelectPrevious }

/-- A sequence of operations on a freshly constructed widget. -/
def runOps (value : wxString) (ops : List Op) : SyntaxTextCtrl :=
  ops.foldl (fun s op => op.run s) (construct value)

/-- The operations that count as a text mutation for the redo history, judged
in the state they are applied to: InsertText, DeleteChar, SetValue and
SaveUndoState always, DeleteSelection with a selection, AcceptCompletion with
the list showing and a non-empty candidate. -/
def Op.mutates : Op → SyntaxTextCtrl → Bool
  | .InsertText _ _, _ => true
  | .DeleteChar _ _, _ => true
  | .SetValue _ _, _ => true
  | .SaveUndoState, _ => true
  | .DeleteSelection, s => s.HasSelection
  | .AcceptCompletion _, s =>
    s.m_showingCompletions &&
      (match s.m_completionPopup with
        | some popup => !popup.GetSelectedCompletion.isEmpty
        | none => false)
  | _, _ => false

/-- Is the operation a call of Undo? -/
def Op.isUndo : Op → Bool
  | .Undo => true
  | _ => false

/-- No operation of the list is a text mutation or a call of Undo, each one
judged in the state it is applied to. -/
def quietAfterUndo : List Op → SyntaxTextCtrl → Bool
  | [], _ => true
  | op :: rest, s => !op.mutates s && !op.isUndo && quietAfterUndo rest (op.run s)

/-- The validity of a widget state: cursor and selection ends inside the text,
the cursor on the active end, and every history entry with its cursor inside
its text. -/
structure Valid (s : SyntaxTextCtrl) : Prop where
  cursor_le : s.m_cursorPos ≤ s.m_text.length
  selStart_le : s.m_selectionStart ≤ s.m_text.length
  selEnd_le : s.m_selectionEnd ≤ s.m_text.length
  cursor_eq : s.m_cursorPos = s.m_selectionEnd
  undo_le : ∀ e ∈ s.m_undoStack, e.cursorPos ≤ e.text.length
  redo_le : ∀ e ∈ s.m_redoStack, e.cursorPos ≤ e.text.length

/-! ## Concrete inputs -/

/-- A fixed-pitch host: every character is 8 pixels wide, the client area 200. -/
def monoHost : Host :=
  { GetTextExtentWidth := fun str => 8 * (str.length : Int), GetClientWidth := 200 }

/-- Blue, for keywords. -/
def blue : wxColour := ⟨0, 0, 255⟩

/-- Green, for numbers. -/
def green : wxColour := ⟨0, 128, 0⟩

/-- The text `abc` with two rules: the first one matches the whole text (as the
pattern `abc` does), the second one has a single empty match at offset 2 (as the
lookahead pattern `(?=c)` does). -/
def emptyMatchCtrl : SyntaxTextCtrl :=
  { construct "abc".toList with
    m_syntaxRules :=
      [ { pattern := fun _ => [(0, 3)], colorFunc := fun _ => blue },
        { pattern := fun _ => [(2, 0)], colorFunc := fun _ => green } ] }

/-- The text `abcdef` with the selection anchored at 2 and active at 5. -/
def selCtrl : SyntaxTextCtrl :=
  SetSelection 2 5 (construct "abcdef".toList)

/-- The text `hello` with the cursor at 2, a full undo stack and a redo entry. -/
def fullHistoryCtrl : SyntaxTextCtrl :=
  { SetSelection 2 2 (construct "hello".toList) with
    m_undoStack := List.replicate 100 ⟨"old".toList, 1⟩
    m_redoStack := [⟨"later".toList, 0⟩] }

/-- The text `hello` with the cursor at 2, two undo entries and no redo entry. -/
def shortHistoryCtrl : SyntaxTextCtrl :=
  { SetSelection 2 2 (construct "hello".toList) with
    m_undoStack := [⟨"h".toList, 1⟩, ⟨"he".toList, 2⟩] }

/-- Three edits: type `X`, Backspace, and a selection deletion. -/
def sampleEdits : List (Host × Mutation) :=
  [(monoHost, .InsertText "X".toList), (monoHost, .DeleteChar false), (monoHost, .DeleteSelection)]

/-- The text `let x = 10` with a keyword rule matching `let` at offset 0 and a
number rule matching `10` at offset 8. -/
def letCtrl : SyntaxTextCtrl :=
  { construct "let x = 10".toList with
    m_syntaxRules :=
      [ { pattern := fun _ => [(0, 3)], colorFunc := fun _ => blue },
        { pattern := fun _ => [(8, 2)], colorFunc := fun _ => green } ] }

/-- The text `ab` with one rule whose matches are the empty matches at the
offsets 0, 1 and 2 (as the pattern `\d*` has them on a text without digits). -/
def digitsCtrl : SyntaxTextCtrl :=
  { construct "ab".toList with
    m_syntaxRules := [ { pattern := fun _ => [(0, 0), (1, 0), (2, 0)], colorFunc := fun _ => green } ] }

/-- The text `pri` with the cursor at its end and the completion list showing
the candidates `print` and `println`. -/
def completionCtrl : SyntaxTextCtrl :=
  ShowCompletions ["print".toList, "println".toList] (construct "pri".toList)

/-- Operations ending in an Undo followed by a cursor move. -/
def sampleOps : List Op :=
  [.SaveUndoState, .InsertText monoHost "x".toList, .Undo, .MoveCursor monoHost (-1) false]

/-- A host with the fixed-pitch font of `monoHost` and a client area 10 pixels
wide, narrower than the left margin plus the 10 pixels kept free on the right. -/
def narrowHost : Host :=
  { GetTextExtentWidth := fun str => 8 * (str.length : Int), GetClientWidth := 10 }

/-- A keyword rule with the single match (0,3), coloured blue. -/
def keywordRule : SyntaxRule :=
  { pattern := fun _ => [(0, 3)], colorFunc := fun _ => blue }

/-- An identifier rule with the matches (0,3) and (4,1), coloured green. -/
def identifierRule : SyntaxRule :=
  { pattern := fun _ => [(0, 3), (4, 1)], colorFunc := fun _ => green }

/-- The text `let x` with the keyword rule registered before the identifier
rule, whose first match is the keyword again. -/
def overlapCtrl : SyntaxTextCtrl :=
  { construct "let x".toList with m_syntaxRules := [keywordRule, identifierRule] }

/-- The text `hello` with no selection, the cursor at 0, a full undo stack and
a redo entry. -/
def atStartCtrl : SyntaxTextCtrl :=
  SetSelection 0 0 fullHistoryCtrl

/-- The text `hello` with no selection, the cursor at the end, a full undo
stack and a redo entry. -/
def atEndCtrl : SyntaxTextCtrl :=
  SetSelection 5 5 fullHistoryCtrl

/-- The key event of typing the letter `x`. -/
def typeX : wxKeyEvent :=
  { keyCode := 88, unicodeKey := 120, cmdDown := false, controlDown := false, shiftDown := false }

/-- The Backspace key event. -/
def backspaceKey : wxKeyEvent :=
  { keyCode := WXK_BACK, unicodeKey := 0, cmdDown := false, controlDown := false,
    shiftDown := false }

/-- The Delete key event. -/
def deleteKey : wxKeyEvent :=
  { keyCode := WXK_DELETE, unicodeKey := 0, cmdDown := false, controlDown := false,
    shiftDown := false }

/-- The paste key event, Ctrl+V. -/
def pasteKey : wxKeyEvent :=
  { keyCode := 86, unicodeKey := 0, cmdDown := true, controlDown := true, shiftDown := false }

end SyntaxTextCtrl

/-! ## Properties -/

namespace SyntaxTextCtrl

/-! ### String primitives -/

theorem wxString_insert_eq (pos : Nat) (str s : wxString) :
    wxString.insert pos str s = s.take pos ++ str ++ s.drop pos := by
  induction s generalizing pos with
  | nil => cases pos <;> simp [wxString.insert]
  | cons c s ih => cases pos <;> simp [wxString.insert, ih]

theorem wxString_erase_eq (pos n : Nat) (s : wxString) :
    wxString.erase pos n s = s.take pos ++ s.drop (pos + n) := by
  induction s generalizing pos with
  | nil => cases pos <;> simp [wxString.erase]
  | cons c s ih =>
    cases pos with
    | zero => simp [wxString.erase]
    | succ p => simp [wxString.erase, ih, Nat.add_right_comm]

theorem wxString_insert_length (pos : Nat) (str s : wxString) :
    (wxString.insert pos str s).length = s.length + str.length := by
  rw [wxString_insert_eq]
  simp only [List.length_append, List.length_take, List.length_drop]
  omega

theorem wxString_erase_length (pos n : Nat) (s : wxString) :
    (wxString.erase pos n s).length = s.length - (min (pos + n) s.length - min pos s.length) := by
  rw [wxString_erase_eq]
  simp only [List.length_append, List.length_take, List.length_drop]
  omega

/-! ### Members left alone by the view and popup helpers -/

theorem HideCompletions_eq (s : SyntaxTextCtrl) :
    HideCompletions s = s ∨ HideCompletions s = { s with m_showingCompletions := false } := by
  unfold HideCompletions
  split
  · exact Or.inr rfl
  · exact Or.inl rfl

@[simp] theorem HideCompletions_text (s : SyntaxTextCtrl) :
    (HideCompletions s).m_text = s.m_text := by
  rcases HideCompletions_eq s with h | h <;> rw [h]

@[simp] theorem HideCompletions_cursorPos (s : SyntaxTextCtrl) :
    (HideCompletions s).m_cursorPos = s.m_cursorPos := by
  rcases HideCompletions_eq s with h | h <;> rw [h]

@[simp] theorem HideCompletions_selectionStart (s : SyntaxTextCtrl) :
    (HideCompletions s).m_selectionStart = s.m_selectionStart := by
  rcases HideCompletions_eq s with h | h <;> rw [h]

@[simp] theorem HideCompletions_selectionEnd (s : SyntaxTextCtrl) :
    (HideCompletions s).m_selectionEnd = s.m_selectionEnd := by
  rcases HideCompletions_eq s with h | h <;> rw [h]

@[simp] theorem HideCompletions_undoStack (s : SyntaxTextCtrl) :
    (HideCompletions s).m_undoStack = s.m_undoStack := by
  rcases HideCompletions_eq s with h | h <;> rw [h]

@[simp] theorem HideCompletions_redoStack (s : SyntaxTextCtrl) :
    (HideCompletions s).m_redoStack = s.m_redoStack := by
  rcases HideCompletions_eq s with h | h <;> rw [h]

@[simp] theorem EnsureCursorVisible_text (dc : Host) (s : SyntaxTextCtrl) :
    (EnsureCursorVisible dc s).m_text = s.m_text := rfl

@[simp] theorem EnsureCursorVisible_cursorPos (dc : Host) (s : SyntaxTextCtrl) :
    (EnsureCursorVisible dc s).m_cursorPos = s.m_cursorPos := rfl

@[simp] theorem EnsureCursorVisible_selectionStart (dc : Host) (s : SyntaxTextCtrl) :
    (EnsureCursorVisible dc s).m_selectionStart = s.m_selectionStart := rfl

@[simp] theorem EnsureCursorVisible_selectionEnd (dc : Host) (s : SyntaxTextCtrl) :
    (EnsureCursorVisible dc s).m_selectionEnd = s.m_selectionEnd := rfl

@[simp] theorem EnsureCursorVisible_undoStack (dc : Host) (s : SyntaxTextCtrl) :
    (EnsureCursorVisible dc s).m_undoStack = s.m_undoStack := rfl

@[simp] theorem EnsureCursorVisible_redoStack (dc : Host) (s : SyntaxTextCtrl) :
    (EnsureCursorVisible dc s).m_redoStack = s.m_redoStack := rfl

/-! ### Highlighting with an empty match -/

/-- C1 (failing input): on the text `abc`, with a first rule matching the whole
text and a second rule having one empty match at offset 2, GetColoredSegments
returns (0,3,blue), (2,0,green), (2,1,default).  The list is not a contiguous
cover of [0,3): the second segment starts at 2 although the first one ends at 3,
and the character at offset 2 lies in two segments. -/
theorem GetColoredSegments_empty_match_not_contiguous :
    GetColoredSegments emptyMatchCtrl
        = [⟨0, 3, blue⟩, ⟨2, 0, green⟩, ⟨2, 1, wxBLACK⟩] ∧
      coversFrom 0 emptyMatchCtrl.m_text.length (GetColoredSegments emptyMatchCtrl) = false := by
  constructor <;> decide

/-! ### Selection -/

/-- C5: SetSelection(a, b) followed by GetSelection returns the pair
(clamp(min(a,b)), clamp(max(a,b))) with clamp(x) = max(0, min(x, n)) for the
text length n; the pair is ordered and lies in [0, n]. -/
theorem GetSelection_SetSelection (a b : Int) (s : SyntaxTextCtrl) :
    GetSelection (SetSelection a b s)
        = (max 0 (min (min a b) (s.m_text.length : Int)),
           max 0 (min (max a b) (s.m_text.length : Int))) ∧
      (GetSelection (SetSelection a b s)).1 ≤ (GetSelection (SetSelection a b s)).2 ∧
      0 ≤ (GetSelection (SetSelection a b s)).1 ∧
      (GetSelection (SetSelection a b s)).2 ≤ (s.m_text.length : Int) := by
  simp only [GetSelection, SetSelection, clampOffset]
  refine ⟨?_, ?_, ?_, ?_⟩
  · apply Prod.ext <;> simp only <;> omega
  · omega
  · omega
  · omega

/-! ### Buffer mutations -/

/-- C7: with the cursor c inside the text t, InsertText(T) yields the text
t[0..c) ++ T ++ t[c..), the cursor c + |T|, both selection ends at the new
cursor and an empty redo stack; the undo stack is unchanged. -/
theorem InsertText_spec (dc : Host) (T : wxString) (s : SyntaxTextCtrl)
    (hc : s.m_cursorPos ≤ s.m_text.length) :
    (InsertText dc T s).m_text
        = s.m_text.take s.m_cursorPos ++ T ++ s.m_text.drop s.m_cursorPos ∧
      (InsertText dc T s).m_cursorPos = s.m_cursorPos + T.length ∧
      (InsertText dc T s).m_selectionStart = s.m_cursorPos + T.length ∧
      (InsertText dc T s).m_selectionEnd = s.m_cursorPos + T.length ∧
      (InsertText dc T s).m_redoStack = [] ∧
      (InsertText dc T s).m_undoStack = s.m_undoStack := by
  have _ := hc
  refine ⟨?_, rfl, rfl, rfl, rfl, rfl⟩
  simp [InsertText, wxString_insert_eq]

/-- Witness of C7: inserting `XY` at cursor 2 of `hello`. -/
theorem InsertText_spec_witness :
    shortHistoryCtrl.m_cursorPos ≤ shortHistoryCtrl.m_text.length ∧
      (InsertText monoHost "XY".toList shortHistoryCtrl).m_text = "heXYllo".toList ∧
      (InsertText monoHost "XY".toList shortHistoryCtrl).m_cursorPos = 4 :=
  ⟨by decide,
   (InsertText_spec monoHost "XY".toList shortHistoryCtrl (by decide)).1,
   (InsertText_spec monoHost "XY".toList shortHistoryCtrl (by decide)).2.1⟩

/-- C8: DeleteSelection leaves the whole state unchanged when the selection is
empty; otherwise, with lo and hi the smaller and the larger selection end, the
new text is t[0..lo) ++ t[hi..), the cursor and both selection ends are lo and
the redo stack is empty. -/
theorem DeleteSelection_spec (s : SyntaxTextCtrl) :
    (s.m_selectionStart = s.m_selectionEnd → DeleteSelection s = s) ∧
      (s.m_selectionStart ≠ s.m_selectionEnd →
        (DeleteSelection s).m_text
            = s.m_text.take (min s.m_selectionStart s.m_selectionEnd)
              ++ s.m_text.drop (max s.m_selectionStart s.m_selectionEnd) ∧
          (DeleteSelection s).m_cursorPos = min s.m_selectionStart s.m_selectionEnd ∧
          (DeleteSelection s).m_selectionStart = min s.m_selectionStart s.m_selectionEnd ∧
          (DeleteSelection s).m_selectionEnd = min s.m_selectionStart s.m_selectionEnd ∧
          (DeleteSelection s).m_redoStack = []) := by
  constructor
  · intro h
    simp [DeleteSelection, HasSelection, h]
  · intro h
    have hlo : min s.m_selectionStart s.m_selectionEnd
        + (max s.m_selectionStart s.m_selectionEnd - min s.m_selectionStart s.m_selectionEnd)
        = max s.m_selectionStart s.m_selectionEnd := by omega
    simp [DeleteSelection, HasSelection, h, wxString_erase_eq, hlo]

/-- Witness of C8: no selection in `hello` (nothing changes), and the selection
(2,5) of `abcdef` (the text becomes `abf`, the cursor 2). -/
theorem DeleteSelection_spec_witness :
    DeleteSelection shortHistoryCtrl = shortHistoryCtrl ∧
      (DeleteSelection selCtrl).m_text = "abf".toList ∧
      (DeleteSelection selCtrl).m_cursorPos = 2 :=
  ⟨(DeleteSelection_spec shortHistoryCtrl).1 (by decide),
   ((DeleteSelection_spec selCtrl).2 (by decide)).1,
   ((DeleteSelection_spec selCtrl).2 (by decide)).2.1⟩

/-- C9: with the cursor c inside the text t, DeleteChar(false) with c > 0 yields
the text t[0..c-1) ++ t[c..) and the cursor c-1, and DeleteChar(true) with
c < |t| yields the text t[0..c) ++ t[c+1..) and the cursor c.  In both cases the
text is one character shorter and both selection ends are at the new cursor. -/
theorem DeleteChar_spec (dc : Host) (s : SyntaxTextCtrl)
    (hc : s.m_cursorPos ≤ s.m_text.length) :
    (0 < s.m_cursorPos →
        (DeleteChar dc false s).m_text
            = s.m_text.take (s.m_cursorPos - 1) ++ s.m_text.drop s.m_cursorPos ∧
          (DeleteChar dc false s).m_cursorPos = s.m_cursorPos - 1 ∧
          (DeleteChar dc false s).m_text.length + 1 = s.m_text.length ∧
          (DeleteChar dc false s).m_selectionStart = s.m_cursorPos - 1 ∧
          (DeleteChar dc false s).m_selectionEnd = s.m_cursorPos - 1) ∧
      (s.m_cursorPos < s.m_text.length →
        (DeleteChar dc true s).m_text
            = s.m_text.take s.m_cursorPos ++ s.m_text.drop (s.m_cursorPos + 1) ∧
          (DeleteChar dc true s).m_cursorPos = s.m_cursorPos ∧
          (DeleteChar dc true s).m_text.length + 1 = s.m_text.length ∧
          (DeleteChar dc true s).m_selectionStart = s.m_cursorPos ∧
          (DeleteChar dc true s).m_selectionEnd = s.m_cursorPos) := by
  constructor
  · intro h
    have h1 : s.m_cursorPos - 1 + 1 = s.m_cursorPos := by omega
    simp only [DeleteChar, Bool.false_and, Bool.false_eq_true, if_false, Bool.not_false,
      Bool.true_and, decide_eq_true_eq, gt_iff_lt, h, if_true, EnsureCursorVisible_text,
      EnsureCursorVisible_cursorPos, EnsureCursorVisible_selectionStart,
      EnsureCursorVisible_selectionEnd, wxString_erase_eq, h1, List.length_append,
      List.length_take, List.length_drop, true_and, and_true]
    omega
  · intro h
    simp only [DeleteChar, Bool.true_and, decide_eq_true_eq, h, if_true,
      EnsureCursorVisible_text, EnsureCursorVisible_cursorPos,
      EnsureCursorVisible_selectionStart, EnsureCursorVisible_selectionEnd, wxString_erase_eq,
      List.length_append, List.length_take, List.length_drop, true_and, and_true]
    omega

/-- Witness of C9: in `hello` with the cursor at 2, Backspace gives `hllo` with
the cursor at 1 and Delete gives `helo` with the cursor at 2. -/
theorem DeleteChar_spec_witness :
    shortHistoryCtrl.m_cursorPos ≤ shortHistoryCtrl.m_text.length ∧
      ((DeleteChar monoHost false shortHistoryCtrl).m_text = "hllo".toList ∧
        (DeleteChar monoHost false shortHistoryCtrl).m_cursorPos = 1) ∧
      ((DeleteChar monoHost true shortHistoryCtrl).m_text = "helo".toList ∧
        (DeleteChar monoHost true shortHistoryCtrl).m_cursorPos = 2) :=
  ⟨by decide,
   ⟨((DeleteChar_spec monoHost shortHistoryCtrl (by decide)).1 (by decide)).1,
    ((DeleteChar_spec monoHost shortHistoryCtrl (by decide)).1 (by decide)).2.1⟩,
   ⟨((DeleteChar_spec monoHost shortHistoryCtrl (by decide)).2 (by decide)).1,
    ((DeleteChar_spec monoHost shortHistoryCtrl (by decide)).2 (by decide)).2.1⟩⟩

/-! ### Cursor movement -/

/-- C10: with a non-empty selection and delta ≠ 0, MoveCursor(delta, false) sets
the cursor to the smaller selection end when delta < 0 and to the larger one
when delta > 0, whatever the magnitude of delta, puts both selection ends on
that cursor and leaves the text unchanged. -/
theorem MoveCursor_collapses_selection (dc : Host) (delta : Int) (s : SyntaxTextCtrl)
    (hsel : s.m_selectionStart ≠ s.m_selectionEnd) (hdelta : delta ≠ 0) :
    (MoveCursor dc delta false s).m_cursorPos
        = (if delta < 0 then min s.m_selectionStart s.m_selectionEnd
           else max s.m_selectionStart s.m_selectionEnd) ∧
      (MoveCursor dc delta false s).m_selectionStart = (MoveCursor dc delta false s).m_cursorPos ∧
      (MoveCursor dc delta false s).m_selectionEnd = (MoveCursor dc delta false s).m_cursorPos ∧
      (MoveCursor dc delta false s).m_text = s.m_text := by
  simp [MoveCursor, HasSelection, hsel, hdelta]

/-- Witness of C10: with the selection (2,5) in `abcdef`, MoveCursor(-1, false)
gives the cursor 2, not 1, and MoveCursor(7, false) gives the cursor 5. -/
theorem MoveCursor_collapses_selection_witness :
    selCtrl.m_selectionStart ≠ selCtrl.m_selectionEnd ∧ (-1 : Int) ≠ 0 ∧
      (MoveCursor monoHost (-1) false selCtrl).m_cursorPos = 2 ∧
      (MoveCursor monoHost (-1) false selCtrl).m_selectionStart = 2 ∧
      (MoveCursor monoHost (-1) false selCtrl).m_selectionEnd = 2 ∧
      (MoveCursor monoHost (-1) false selCtrl).m_text = "abcdef".toList :=
  ⟨by decide, by decide,
   (MoveCursor_collapses_selection monoHost (-1) selCtrl (by decide) (by decide)).1,
   (MoveCursor_collapses_selection monoHost (-1) selCtrl (by decide) (by decide)).2.1,
   (MoveCursor_collapses_selection monoHost (-1) selCtrl (by decide) (by decide)).2.2.1,
   (MoveCursor_collapses_selection monoHost (-1) selCtrl (by decide) (by decide)).2.2.2⟩


/-! ### History stacks -/

theorem snoc_cases (l : List TextState) : l = [] ∨ ∃ L b, l = L ++ [b] := by
  rcases List.eq_nil_or_concat l with h | ⟨L, b, h⟩
  · exact Or.inl h
  · exact Or.inr ⟨L, b, by simpa using h⟩

theorem pushCapped_of_lt (stack : List TextState) (e : TextState)
    (h : stack.length < 100) : pushCapped stack e = stack ++ [e] := by
  unfold pushCapped MAX_UNDO_LEVELS
  simp only [List.length_append, List.length_singleton]
  rw [if_neg (by omega)]

theorem pushCapped_of_ge (stack : List TextState) (e : TextState)
    (h : 100 ≤ stack.length) : pushCapped stack e = stack.tail ++ [e] := by
  unfold pushCapped MAX_UNDO_LEVELS
  simp only [List.length_append, List.length_singleton]
  rw [if_pos (by omega)]
  cases stack with
  | nil => simp at h
  | cons a t => rfl

theorem pushCapped_keeps_top (A top : List TextState) (e : TextState)
    (h : top.length < 100) : ∃ B, pushCapped (A ++ top) e = B ++ (top ++ [e]) := by
  by_cases hlen : (A ++ top).length < 100
  · exact ⟨A, by rw [pushCapped_of_lt _ _ hlen, List.append_assoc]⟩
  · rw [pushCapped_of_ge _ _ (by omega)]
    cases A with
    | nil => simp at hlen; omega
    | cons a t => exact ⟨t, by simp⟩

theorem mem_pushCapped (stack : List TextState) (e x : TextState)
    (h : x ∈ pushCapped stack e) : x ∈ stack ∨ x = e := by
  unfold pushCapped at h
  simp only at h
  split at h
  · have := List.mem_of_mem_tail h
    simpa using this
  · simpa using h

theorem Undo_of_nil (s : SyntaxTextCtrl) (h : s.m_undoStack = []) : Undo s = s := by
  simp [Undo, CanUndo, h]

theorem Redo_of_nil (s : SyntaxTextCtrl) (h : s.m_redoStack = []) : Redo s = s := by
  simp [Redo, CanRedo, h]

theorem Undo_of_snoc (s : SyntaxTextCtrl) (U : List TextState) (x : TextState)
    (h : s.m_undoStack = U ++ [x]) :
    (Undo s).m_text = x.text ∧ (Undo s).m_cursorPos = x.cursorPos ∧
      (Undo s).m_selectionStart = x.cursorPos ∧ (Undo s).m_selectionEnd = x.cursorPos ∧
      (Undo s).m_undoStack = U ∧
      (Undo s).m_redoStack = pushCapped s.m_redoStack (snapshot s) := by
  simp [Undo, CanUndo, h, snapshot]

theorem Redo_of_snoc (s : SyntaxTextCtrl) (R : List TextState) (x : TextState)
    (h : s.m_redoStack = R ++ [x]) :
    (Redo s).m_text = x.text ∧ (Redo s).m_cursorPos = x.cursorPos ∧
      (Redo s).m_selectionStart = x.cursorPos ∧ (Redo s).m_selectionEnd = x.cursorPos ∧
      (Redo s).m_redoStack = R ∧
      (Redo s).m_undoStack = pushCapped s.m_undoStack (snapshot s) := by
  simp [Redo, CanRedo, h, snapshot]

theorem runEdits_snoc (es : List (Host × Mutation)) (e : Host × Mutation) (s : SyntaxTextCtrl) :
    runEdits (es ++ [e]) s = edit e.1 e.2 (runEdits es s) := by
  induction es generalizing s with
  | nil => rfl
  | cons a t ih => exact ih (edit a.1 a.2 s)

theorem edit_undoStack (dc : Host) (m : Mutation) (s : SyntaxTextCtrl) :
    (edit dc m s).m_undoStack = pushCapped s.m_undoStack (snapshot s) := by
  cases m with
  | InsertText text => rfl
  | DeleteSelection =>
    simp only [edit, Mutation.apply, DeleteSelection]
    split <;> rfl
  | DeleteChar forward =>
    simp only [edit, Mutation.apply, DeleteChar, EnsureCursorVisible_undoStack]
    split
    · rfl
    · split <;> rfl

/-- After at most 100 edits the undo stack ends with the snapshots taken before
each of them, the first one being the snapshot of the starting state. -/
theorem runEdits_undoStack (es : List (Host × Mutation)) (s : SyntaxTextCtrl)
    (h : es.length ≤ 100) :
    ∃ D snaps, (runEdits es s).m_undoStack = D ++ snaps ∧ snaps.length = es.length ∧
      (es ≠ [] → snaps.head? = some (snapshot s)) := by
  induction es using List.reverseRecOn with
  | nil => exact ⟨s.m_undoStack, [], by simp [runEdits]⟩
  | append_singleton es e ih =>
    simp only [List.length_append, List.length_singleton] at h
    obtain ⟨D, snaps, hD, hlen, hhead⟩ := ih (by omega)
    obtain ⟨B, hB⟩ := pushCapped_keeps_top D snaps (snapshot (runEdits es s)) (by omega)
    refine ⟨B, snaps ++ [snapshot (runEdits es s)], ?_, ?_, ?_⟩
    · rw [runEdits_snoc, edit_undoStack, hD, hB]
    · simp [hlen]
    · intro _
      cases es with
      | nil =>
        have : snaps = [] := List.length_eq_zero.mp (by simpa using hlen)
        subst this
        rfl
      | cons a t =>
        have h1 := hhead (by simp)
        cases snaps with
        | nil => simp at h1
        | cons y ys => simpa using h1

/-- Undoing as many times as there are entries on top of the undo stack ends in
the oldest of them. -/
theorem iterate_Undo (snaps : List TextState) :
    ∀ (D : List TextState) (s : SyntaxTextCtrl), s.m_undoStack = D ++ snaps →
      (Undo^[snaps.length] s).m_undoStack = D ∧
        (snaps = [] → Undo^[snaps.length] s = s) ∧
        (∀ x, snaps.head? = some x →
          (Undo^[snaps.length] s).m_text = x.text ∧
            (Undo^[snaps.length] s).m_cursorPos = x.cursorPos) := by
  induction snaps using List.reverseRecOn with
  | nil =>
    intro D s h
    simpa using h
  | append_singleton init y ih =>
    intro D s h
    rw [← List.append_assoc] at h
    obtain ⟨ht, hc, -, -, hu, -⟩ := Undo_of_snoc s (D ++ init) y h
    obtain ⟨h1, h2, h3⟩ := ih D (Undo s) hu
    simp only [List.length_append, List.length_singleton, Function.iterate_succ_apply]
    refine ⟨h1, ?_, ?_⟩
    · intro hnil
      simp at hnil
    · intro x hx
      cases init with
      | nil =>
        simp only [List.nil_append, List.head?_cons, Option.some.injEq] at hx
        subst hx
        simpa using ⟨ht, hc⟩
      | cons a t => exact h3 x (by simpa using hx)

/-- C2: after k ≤ 100 edits, each being SaveUndoState followed by InsertText,
DeleteSelection or DeleteChar, k calls of Undo restore the text and the cursor of
the starting state, whatever the undo stack held before the edits. -/
theorem Undo_after_edits_restores (edits : List (Host × Mutation)) (s : SyntaxTextCtrl)
    (hk : edits.length ≤ 100) :
    (Undo^[edits.length] (runEdits edits s)).m_text = s.m_text ∧
      (Undo^[edits.length] (runEdits edits s)).m_cursorPos = s.m_cursorPos := by
  obtain ⟨D, snaps, hD, hlen, hhead⟩ := runEdits_undoStack edits s hk
  obtain ⟨-, h2, h3⟩ := iterate_Undo snaps D (runEdits edits s) hD
  rw [← hlen]
  cases edits with
  | nil =>
    have : snaps = [] := List.length_eq_zero.mp (by simpa using hlen)
    rw [h2 this]
    exact ⟨rfl, rfl⟩
  | cons a t => exact h3 _ (hhead (by simp))

/-- Witness of C2: three edits on a state whose undo stack is already full,
then three calls of Undo. -/
theorem Undo_after_edits_restores_witness :
    sampleEdits.length ≤ 100 ∧
      (Undo^[3] (runEdits sampleEdits fullHistoryCtrl)).m_text = "hello".toList ∧
      (Undo^[3] (runEdits sampleEdits fullHistoryCtrl)).m_cursorPos = 2 :=
  ⟨by decide, Undo_after_edits_restores sampleEdits fullHistoryCtrl (by decide)⟩

/-- Undo k times and then Redo k times, keeping track of the part of the redo
stack that is not disturbed. -/
theorem iterate_Redo_Undo (k : Nat) :
    ∀ (s : SyntaxTextCtrl) (A top : List TextState), s.m_redoStack = A ++ top →
      top.length + k ≤ 100 → k ≤ s.m_undoStack.length → s.m_undoStack.length ≤ 100 →
      ∃ B, (Redo^[k] (Undo^[k] s)).m_text = s.m_text ∧
        (Redo^[k] (Undo^[k] s)).m_cursorPos = s.m_cursorPos ∧
        (Redo^[k] (Undo^[k] s)).m_undoStack = s.m_undoStack ∧
        (Redo^[k] (Undo^[k] s)).m_redoStack = B ++ top := by
  induction k with
  | zero =>
    intro s A top h _ _ _
    exact ⟨A, rfl, rfl, rfl, h⟩
  | succ k ih =>
    intro s A top h htop hk hn
    rcases snoc_cases s.m_undoStack with hnil | ⟨U, x, hU⟩
    · rw [hnil] at hk
      simp at hk
    · have hlen : U.length + 1 = s.m_undoStack.length := by rw [hU]; simp
      obtain ⟨ht, hc, -, -, hu, hr⟩ := Undo_of_snoc s U x hU
      obtain ⟨A1, hA1⟩ := pushCapped_keeps_top A top (snapshot s) (by omega)
      rw [h, hA1] at hr
      obtain ⟨B, h1, h2, h3, h4⟩ := ih (Undo s) A1 (top ++ [snapshot s]) hr
        (by simp only [List.length_append, List.length_singleton]; omega)
        (by rw [hu]; omega) (by rw [hu]; omega)
      rw [← List.append_assoc] at h4
      obtain ⟨gt, gc, -, -, gr, gu⟩ := Redo_of_snoc _ (B ++ top) (snapshot s) h4
      rw [Function.iterate_succ_apply' (f := Redo), Function.iterate_succ_apply (f := Undo)]
      refine ⟨B, gt, gc, ?_, gr⟩
      rw [gu, h3, hu, pushCapped_of_lt U _ (by omega), hU]
      simp only [snapshot, h1, h2, ht, hc]

/-- C3: when the undo stack holds n ≤ 100 entries and k ≤ n, k calls of Undo
followed by k calls of Redo restore the text, the cursor and the undo stack. -/
theorem Redo_after_Undo_restores (k : Nat) (s : SyntaxTextCtrl)
    (hk : k ≤ s.m_undoStack.length) (hn : s.m_undoStack.length ≤ 100) :
    (Redo^[k] (Undo^[k] s)).m_text = s.m_text ∧
      (Redo^[k] (Undo^[k] s)).m_cursorPos = s.m_cursorPos ∧
      (Redo^[k] (Undo^[k] s)).m_undoStack = s.m_undoStack := by
  obtain ⟨B, h1, h2, h3, -⟩ :=
    iterate_Redo_Undo k s s.m_redoStack [] (by simp) (by simp only [List.length_nil]; omega) hk hn
  exact ⟨h1, h2, h3⟩

/-- Witness of C3: two entries on the undo stack, two calls of Undo and two of
Redo. -/
theorem Redo_after_Undo_restores_witness :
    2 ≤ shortHistoryCtrl.m_undoStack.length ∧ shortHistoryCtrl.m_undoStack.length ≤ 100 ∧
      (Redo^[2] (Undo^[2] shortHistoryCtrl)).m_text = "hello".toList ∧
      (Redo^[2] (Undo^[2] shortHistoryCtrl)).m_cursorPos = 2 ∧
      (Redo^[2] (Undo^[2] shortHistoryCtrl)).m_undoStack
        = [⟨"h".toList, 1⟩, ⟨"he".toList, 2⟩] :=
  ⟨by decide, by decide, Redo_after_Undo_restores 2 shortHistoryCtrl (by decide) (by decide)⟩

theorem saveEach_eq (states : List SyntaxTextCtrl) :
    ∀ stack : List TextState, stack.length ≤ 100 →
      saveEach states stack
        = (stack ++ states.map snapshot).drop (stack.length + states.length - 100) := by
  induction states with
  | nil =>
    intro stack h
    simp only [saveEach, List.map_nil, List.append_nil, List.length_nil, Nat.add_zero]
    rw [Nat.sub_eq_zero_of_le h, List.drop_zero]
  | cons s rest ih =>
    intro stack h
    have hsave : (SaveUndoState { s with m_undoStack := stack }).m_undoStack
        = pushCapped stack (snapshot s) := rfl
    simp only [saveEach, hsave, List.map_cons, List.length_cons]
    by_cases hlt : stack.length < 100
    · rw [pushCapped_of_lt _ _ hlt,
        ih _ (by simp only [List.length_append, List.length_singleton]; omega)]
      simp only [List.length_append, List.length_singleton, List.append_assoc,
        List.singleton_append]
      congr 1
      omega
    · have h100 : stack.length = 100 := by omega
      rw [pushCapped_of_ge _ _ (by omega)]
      cases stack with
      | nil => simp at h100
      | cons a t =>
        simp only [List.length_cons] at h100
        rw [ih _ (by simp only [List.tail_cons, List.length_append, List.length_singleton]; omega)]
        simp only [List.tail_cons, List.length_append, List.length_singleton, List.length_cons,
          List.append_assoc, List.singleton_append, List.cons_append, List.length_nil,
          List.nil_append, Nat.zero_add]
        have e1 : t.length + 1 + rest.length - 100 = rest.length := by omega
        have e2 : t.length + 1 + (rest.length + 1) - 100 = rest.length + 1 := by omega
        rw [e1, e2, List.drop_succ_cons]

/-- C4: starting from an empty undo stack, after SaveUndoState has been called
in the states s_1, ..., s_n (n arbitrary), the undo stack holds the snapshots of
the last min(n, 100) of them, oldest first and the most recent one at the back
(the top); the snapshots dropped are the oldest ones. -/
theorem saveEach_keeps_last_100 (states : List SyntaxTextCtrl) :
    saveEach states [] = (states.map snapshot).drop (states.length - 100) ∧
      (saveEach states []).length = min states.length 100 := by
  have h := saveEach_eq states [] (by simp)
  simp only [List.nil_append, List.length_nil, Nat.zero_add] at h
  refine ⟨h, ?_⟩
  rw [h, List.length_drop, List.length_map]
  omega


/-! ### Validity of the reachable states -/

theorem Valid.congr {s r : SyntaxTextCtrl} (h : Valid s) (h1 : r.m_text = s.m_text)
    (h2 : r.m_cursorPos = s.m_cursorPos) (h3 : r.m_selectionStart = s.m_selectionStart)
    (h4 : r.m_selectionEnd = s.m_selectionEnd) (h5 : r.m_undoStack = s.m_undoStack)
    (h6 : r.m_redoStack = s.m_redoStack) : Valid r where
  cursor_le := by rw [h1, h2]; exact h.cursor_le
  selStart_le := by rw [h1, h3]; exact h.selStart_le
  selEnd_le := by rw [h1, h4]; exact h.selEnd_le
  cursor_eq := by rw [h2, h4]; exact h.cursor_eq
  undo_le := by rw [h5]; exact h.undo_le
  redo_le := by rw [h6]; exact h.redo_le

theorem Valid_construct (value : wxString) : Valid (construct value) where
  cursor_le := Nat.le_refl _
  selStart_le := Nat.le_refl _
  selEnd_le := Nat.le_refl _
  cursor_eq := rfl
  undo_le := by intro e he; simp [construct] at he
  redo_le := by intro e he; simp [construct] at he

theorem Valid_HideCompletions {s : SyntaxTextCtrl} (h : Valid s) : Valid (HideCompletions s) :=
  h.congr (by simp) (by simp) (by simp) (by simp) (by simp) (by simp)

theorem Valid_EnsureCursorVisible (dc : Host) {s : SyntaxTextCtrl} (h : Valid s) :
    Valid (EnsureCursorVisible dc s) :=
  h.congr rfl rfl rfl rfl rfl rfl

theorem Valid_ShowCompletions (cs : List wxString) {s : SyntaxTextCtrl} (h : Valid s) :
    Valid (ShowCompletions cs s) := by
  unfold ShowCompletions
  split
  · exact Valid_HideCompletions h
  · exact h.congr rfl rfl rfl rfl rfl rfl

theorem Valid_UpdateCompletions {s : SyntaxTextCtrl} (h : Valid s) :
    Valid (UpdateCompletions s) := by
  unfold UpdateCompletions
  split
  · exact h
  · simp only
    split
    · exact Valid_ShowCompletions _ h
    · exact Valid_HideCompletions h

theorem Valid_SaveUndoState {s : SyntaxTextCtrl} (h : Valid s) : Valid (SaveUndoState s) where
  cursor_le := h.cursor_le
  selStart_le := h.selStart_le
  selEnd_le := h.selEnd_le
  cursor_eq := h.cursor_eq
  undo_le := by
    intro e he
    rcases mem_pushCapped _ _ _ he with h1 | h1
    · exact h.undo_le e h1
    · rw [h1]; exact h.cursor_le
  redo_le := by intro e he; simp [SaveUndoState] at he

theorem Valid_SetValue (dc : Host) (value : wxString) {s : SyntaxTextCtrl} (h : Valid s) :
    Valid (SetValue dc value s) where
  cursor_le := Nat.le_refl _
  selStart_le := Nat.le_refl _
  selEnd_le := Nat.le_refl _
  cursor_eq := rfl
  undo_le := (Valid_SaveUndoState h).undo_le
  redo_le := (Valid_SaveUndoState h).redo_le

theorem clampOffset_le (x : Int) (n : Nat) : clampOffset x n ≤ n := by
  unfold clampOffset
  omega

theorem Valid_SetSelection (a b : Int) {s : SyntaxTextCtrl} (h : Valid s) :
    Valid (SetSelection a b s) where
  cursor_le := clampOffset_le _ _
  selStart_le := clampOffset_le _ _
  selEnd_le := clampOffset_le _ _
  cursor_eq := rfl
  undo_le := h.undo_le
  redo_le := h.redo_le

theorem Valid_SelectAll {s : SyntaxTextCtrl} (h : Valid s) : Valid (SelectAll s) where
  cursor_le := Nat.le_refl _
  selStart_le := Nat.zero_le _
  selEnd_le := Nat.le_refl _
  cursor_eq := rfl
  undo_le := h.undo_le
  redo_le := h.redo_le

/-- InsertText only needs the cursor inside the text and sound history entries:
it overwrites both selection ends. -/
theorem Valid_InsertText_of (dc : Host) (text : wxString) {s : SyntaxTextCtrl}
    (hc : s.m_cursorPos ≤ s.m_text.length)
    (hu : ∀ e ∈ s.m_undoStack, e.cursorPos ≤ e.text.length) :
    Valid (InsertText dc text s) where
  cursor_le := by
    show s.m_cursorPos + text.length ≤ (wxString.insert s.m_cursorPos text s.m_text).length
    rw [wxString_insert_length]; omega
  selStart_le := by
    show s.m_cursorPos + text.length ≤ (wxString.insert s.m_cursorPos text s.m_text).length
    rw [wxString_insert_length]; omega
  selEnd_le := by
    show s.m_cursorPos + text.length ≤ (wxString.insert s.m_cursorPos text s.m_text).length
    rw [wxString_insert_length]; omega
  cursor_eq := rfl
  undo_le := hu
  redo_le := by intro e he; simp [InsertText] at he

theorem Valid_InsertText (dc : Host) (text : wxString) {s : SyntaxTextCtrl} (h : Valid s) :
    Valid (InsertText dc text s) :=
  Valid_InsertText_of dc text h.cursor_le h.undo_le

theorem Valid_DeleteSelection {s : SyntaxTextCtrl} (h : Valid s) : Valid (DeleteSelection s) := by
  unfold DeleteSelection
  split
  · exact h
  · have h1 := h.selStart_le
    have h2 := h.selEnd_le
    have hlen : min s.m_selectionStart s.m_selectionEnd
        ≤ (wxString.erase (min s.m_selectionStart s.m_selectionEnd)
            (max s.m_selectionStart s.m_selectionEnd - min s.m_selectionStart s.m_selectionEnd)
            s.m_text).length := by
      rw [wxString_erase_length]; omega
    exact
      { cursor_le := hlen
        selStart_le := hlen
        selEnd_le := hlen
        cursor_eq := rfl
        undo_le := h.undo_le
        redo_le := by intro e he; simp at he }

theorem Valid_DeleteChar (dc : Host) (forward : Bool) {s : SyntaxTextCtrl} (h : Valid s) :
    Valid (DeleteChar dc forward s) := by
  have hc := h.cursor_le
  unfold DeleteChar
  simp only
  apply Valid_EnsureCursorVisible
  split
  · rename_i hf
    simp only [Bool.and_eq_true, decide_eq_true_eq] at hf
    have hlen : s.m_cursorPos ≤ (wxString.erase s.m_cursorPos 1 s.m_text).length := by
      rw [wxString_erase_length]; omega
    exact
      { cursor_le := hlen
        selStart_le := hlen
        selEnd_le := hlen
        cursor_eq := rfl
        undo_le := h.undo_le
        redo_le := by intro e he; simp at he }
  · split
    · rename_i hb
      simp only [Bool.and_eq_true, decide_eq_true_eq] at hb
      have hlen : s.m_cursorPos - 1 ≤ (wxString.erase (s.m_cursorPos - 1) 1 s.m_text).length := by
        rw [wxString_erase_length]; omega
      exact
        { cursor_le := hlen
          selStart_le := hlen
          selEnd_le := hlen
          cursor_eq := rfl
          undo_le := h.undo_le
          redo_le := by intro e he; simp at he }
    · exact
        { cursor_le := hc
          selStart_le := hc
          selEnd_le := hc
          cursor_eq := rfl
          undo_le := h.undo_le
          redo_le := by intro e he; simp at he }

theorem clampInt32_le (x : Int) (n : Nat) : (max 0 (min x (toInt32 n))).toNat ≤ n := by
  unfold toInt32
  omega

theorem Valid_MoveCursor (dc : Host) (delta : Int) (select : Bool) {s : SyntaxTextCtrl}
    (h : Valid s) : Valid (MoveCursor dc delta select s) := by
  have h1 := h.selStart_le
  have h2 := h.selEnd_le
  have hmin : min s.m_selectionStart s.m_selectionEnd ≤ s.m_text.length := by omega
  have hmax : max s.m_selectionStart s.m_selectionEnd ≤ s.m_text.length := by omega
  have hclamp := clampInt32_le (toInt32 (toInt32 s.m_cursorPos + delta)) s.m_text.length
  unfold MoveCursor
  simp only
  apply Valid_EnsureCursorVisible
  split
  · split
    · exact
        { cursor_le := hmin
          selStart_le := hmin
          selEnd_le := hmin
          cursor_eq := rfl
          undo_le := h.undo_le
          redo_le := h.redo_le }
    · exact
        { cursor_le := hmax
          selStart_le := hmax
          selEnd_le := hmax
          cursor_eq := rfl
          undo_le := h.undo_le
          redo_le := h.redo_le }
  · split
    · constructor <;> dsimp only
      exacts [hclamp, hclamp, hclamp, h.undo_le, h.redo_le]
    · constructor <;> dsimp only
      exacts [hclamp, h1, hclamp, h.undo_le, h.redo_le]

theorem Valid_SetCursorPos (dc : Host) (pos : Nat) (select : Bool) {s : SyntaxTextCtrl}
    (h : Valid s) : Valid (SetCursorPos dc pos select s) := by
  have h1 := h.selStart_le
  unfold SetCursorPos
  simp only
  apply Valid_EnsureCursorVisible
  split
  · exact
      { cursor_le := Nat.min_le_right _ _
        selStart_le := Nat.min_le_right _ _
        selEnd_le := Nat.min_le_right _ _
        cursor_eq := rfl
        undo_le := h.undo_le
        redo_le := h.redo_le }
  · exact
      { cursor_le := Nat.min_le_right _ _
        selStart_le := h1
        selEnd_le := Nat.min_le_right _ _
        cursor_eq := rfl
        undo_le := h.undo_le
        redo_le := h.redo_le }

theorem Valid_Undo {s : SyntaxTextCtrl} (h : Valid s) : Valid (Undo s) := by
  rcases snoc_cases s.m_undoStack with hnil | ⟨U, x, hU⟩
  · rw [Undo_of_nil s hnil]; exact h
  · obtain ⟨ht, hc, hs, he, hu, hr⟩ := Undo_of_snoc s U x hU
    have hx : x.cursorPos ≤ x.text.length := h.undo_le x (by rw [hU]; simp)
    exact
      { cursor_le := by rw [ht, hc]; exact hx
        selStart_le := by rw [ht, hs]; exact hx
        selEnd_le := by rw [ht, he]; exact hx
        cursor_eq := by rw [hc, he]
        undo_le := by
          intro e hmem
          rw [hu] at hmem
          exact h.undo_le e (by rw [hU]; exact List.mem_append_left _ hmem)
        redo_le := by
          intro e hmem
          rw [hr] at hmem
          rcases mem_pushCapped _ _ _ hmem with h1 | h1
          · exact h.redo_le e h1
          · rw [h1]; exact h.cursor_le }

theorem Valid_Redo {s : SyntaxTextCtrl} (h : Valid s) : Valid (Redo s) := by
  rcases snoc_cases s.m_redoStack with hnil | ⟨R, x, hR⟩
  · rw [Redo_of_nil s hnil]; exact h
  · obtain ⟨ht, hc, hs, he, hr, hu⟩ := Redo_of_snoc s R x hR
    have hx : x.cursorPos ≤ x.text.length := h.redo_le x (by rw [hR]; simp)
    exact
      { cursor_le := by rw [ht, hc]; exact hx
        selStart_le := by rw [ht, hs]; exact hx
        selEnd_le := by rw [ht, he]; exact hx
        cursor_eq := by rw [hc, he]
        redo_le := by
          intro e hmem
          rw [hr] at hmem
          exact h.redo_le e (by rw [hR]; exact List.mem_append_left _ hmem)
        undo_le := by
          intro e hmem
          rw [hu] at hmem
          rcases mem_pushCapped _ _ _ hmem with h1 | h1
          · exact h.undo_le e h1
          · rw [h1]; exact h.cursor_le }

theorem findWordStart_le (text : wxString) (pos : Nat) : findWordStart text pos ≤ pos := by
  induction pos with
  | zero => simp [findWordStart]
  | succ n ih =>
    unfold findWordStart
    split
    · omega
    · exact Nat.le_refl _

theorem Valid_AcceptCompletion (dc : Host) {s : SyntaxTextCtrl} (h : Valid s) :
    Valid (AcceptCompletion dc s) := by
  unfold AcceptCompletion
  split
  · exact h
  · split
    · exact h
    · simp only
      apply Valid_HideCompletions
      split
      · have hs := Valid_SaveUndoState h
        have hw := findWordStart_le (SaveUndoState s).m_text (SaveUndoState s).m_cursorPos
        have hc := hs.cursor_le
        apply Valid_InsertText_of
        · simp only
          rw [wxString_erase_length]
          omega
        · exact hs.undo_le
      · exact h

theorem Valid_run (op : Op) {s : SyntaxTextCtrl} (h : Valid s) : Valid (op.run s) := by
  cases op with
  | SetValue dc value => exact Valid_SetValue dc value h
  | SetSelection a b => exact Valid_SetSelection a b h
  | SelectAll => exact Valid_SelectAll h
  | InsertText dc text => exact Valid_InsertText dc text h
  | DeleteSelection => exact Valid_DeleteSelection h
  | DeleteChar dc forward => exact Valid_DeleteChar dc forward h
  | MoveCursor dc delta select => exact Valid_MoveCursor dc delta select h
  | SetCursorPos dc pos select => exact Valid_SetCursorPos dc pos select h
  | SaveUndoState => exact Valid_SaveUndoState h
  | Undo => exact Valid_Undo h
  | Redo => exact Valid_Redo h
  | AcceptCompletion dc => exact Valid_AcceptCompletion dc h
  | ShowCompletions cs => exact Valid_ShowCompletions cs h
  | HideCompletions => exact Valid_HideCompletions h
  | UpdateCompletions => exact Valid_UpdateCompletions h
  | SetCompletionFunction func => exact h.congr rfl rfl rfl rfl rfl rfl
  | SelectNext => exact h.congr rfl rfl rfl rfl rfl rfl
  | SelectPrevious => exact h.congr rfl rfl rfl rfl rfl rfl

theorem Valid_foldl (ops : List Op) :
    ∀ s : SyntaxTextCtrl, Valid s → Valid (ops.foldl (fun s op => op.run s) s) := by
  induction ops with
  | nil => intro s h; exact h
  | cons op rest ih => intro s h; exact ih _ (Valid_run op h)

/-- C6: in every state reached from construction by any sequence of SetValue,
SetSelection, SelectAll, InsertText, DeleteSelection, DeleteChar, MoveCursor,
SetCursorPos, SaveUndoState, Undo, Redo and AcceptCompletion (and of the popup
operations that make AcceptCompletion effective), with arbitrary arguments, the
cursor and both selection ends lie in [0, length of the text] and the cursor
equals the active selection end. -/
theorem reachable_offsets_in_range (value : wxString) (ops : List Op) :
    (runOps value ops).m_cursorPos ≤ (runOps value ops).m_text.length ∧
      (runOps value ops).m_selectionStart ≤ (runOps value ops).m_text.length ∧
      (runOps value ops).m_selectionEnd ≤ (runOps value ops).m_text.length ∧
      (runOps value ops).m_cursorPos = (runOps value ops).m_selectionEnd := by
  have h := Valid_foldl ops (construct value) (Valid_construct value)
  exact ⟨h.cursor_le, h.selStart_le, h.selEnd_le, h.cursor_eq⟩

end SyntaxTextCtrl

namespace SyntaxTextCtrl

/-! ### Highlighting with non-empty matches -/

theorem markMatched_length (matched : List Bool) (start length : Nat) :
    (markMatched matched start length).length = matched.length := by
  unfold markMatched
  induction length generalizing matched start with
  | zero => rfl
  | succ k ih =>
    rw [List.range'_succ, List.foldl_cons, ih]
    simp

theorem markMatched_getD (matched : List Bool) (start length i : Nat) :
    (markMatched matched start length).getD i false
      = (matched.getD i false || decide (start ≤ i ∧ i < start + length ∧ i < matched.length)) := by
  unfold markMatched
  induction length generalizing matched start with
  | zero =>
    simp only [List.range'_zero, List.foldl_nil, Nat.add_zero]
    have : decide (start ≤ i ∧ i < start ∧ i < matched.length) = false := by
      apply decide_eq_false
      omega
    rw [this, Bool.or_false]
  | succ k ih =>
    rw [List.range'_succ, List.foldl_cons, ih]
    simp only [List.getD_eq_getElem?_getD, List.getElem?_set, List.length_set]
    by_cases h1 : start = i
    · subst h1
      by_cases h2 : start < matched.length
      · simp [h2]
      · simp [h2, List.getElem?_eq_none (Nat.le_of_not_lt h2)]
    · simp only [h1, if_false]
      congr 1
      apply decide_eq_decide.mpr
      omega

theorem alreadyMatched_eq_false (matched : List Bool) (start length : Nat)
    (h : alreadyMatched matched start length = false) (i : Nat) (h1 : start ≤ i)
    (h2 : i < start + length) : matched.getD i false = false := by
  unfold alreadyMatched at h
  rw [List.any_eq_false] at h
  have := h i (List.mem_range'_1.mpr ⟨h1, h2⟩)
  simpa using this

theorem Collected_applyMatch (text : wxString) (rule : SyntaxRule)
    (acc : List ColoredSegment × List Bool) (m : Nat × Nat) (h : Collected text.length acc)
    (hpos : 0 < m.2) (hin : m.1 + m.2 ≤ text.length) :
    Collected text.length (applyMatch text rule acc m) := by
  unfold applyMatch
  cases hm : alreadyMatched acc.2 m.1 m.2 with
  | true => simpa using h
  | false =>
    simp only [Bool.false_eq_true, if_false]
    refine ⟨?_, ?_, ?_, ?_⟩
    · simp only [markMatched_length]
      exact h.mask_length
    · intro seg hseg
      simp only [List.mem_append, List.mem_singleton] at hseg
      rcases hseg with hseg | rfl
      · exact h.inside seg hseg
      · exact ⟨hpos, hin⟩
    · intro seg hseg i hi1 hi2
      simp only [List.mem_append, List.mem_singleton] at hseg
      simp only [markMatched_getD, Bool.or_eq_true, decide_eq_true_eq]
      rcases hseg with hseg | rfl
      · exact Or.inl (h.claimed seg hseg i hi1 hi2)
      · simp only at hi1 hi2
        exact Or.inr ⟨hi1, hi2, by rw [h.mask_length]; omega⟩
    · simp only
      rw [List.pairwise_append]
      refine ⟨h.apart, List.pairwise_singleton _ _, ?_⟩
      intro a ha b hb
      rw [List.mem_singleton] at hb
      subst hb
      by_contra hcon
      simp only [ColoredSegment.Disjoint, not_or, Nat.not_le] at hcon
      have hlen := (h.inside a ha).1
      have c1 := h.claimed a ha (max a.start m.1) (by omega) (by omega)
      have c2 := alreadyMatched_eq_false acc.2 m.1 m.2 hm (max a.start m.1) (by omega) (by omega)
      rw [c1] at c2
      exact Bool.noConfusion c2

theorem Collected_foldl_applyMatch (text : wxString) (rule : SyntaxRule) (ms : List (Nat × Nat)) :
    ∀ acc : List ColoredSegment × List Bool, Collected text.length acc →
      (∀ m ∈ ms, 0 < m.2 ∧ m.1 + m.2 ≤ text.length) →
      Collected text.length (ms.foldl (applyMatch text rule) acc) := by
  induction ms with
  | nil => intro acc h _; exact h
  | cons m rest ih =>
    intro acc h hms
    exact ih _ (Collected_applyMatch text rule acc m h (hms m (by simp)).1 (hms m (by simp)).2)
      (fun x hx => hms x (List.mem_cons_of_mem _ hx))

theorem Collected_foldl_applyRule (text : wxString) (rules : List SyntaxRule) :
    ∀ acc : List ColoredSegment × List Bool, Collected text.length acc →
      (∀ rule ∈ rules, ∀ m ∈ rule.pattern text, 0 < m.2 ∧ m.1 + m.2 ≤ text.length) →
      Collected text.length (rules.foldl (applyRule text) acc) := by
  induction rules with
  | nil => intro acc h _; exact h
  | cons rule rest ih =>
    intro acc h hrules
    exact ih _ (Collected_foldl_applyMatch text rule _ acc h (hrules rule (by simp)))
      (fun r hr => hrules r (List.mem_cons_of_mem _ hr))

theorem Collected_init (text : wxString) :
    Collected text.length ([], List.replicate text.length false) where
  mask_length := by simp
  inside := by intro seg h; simp at h
  claimed := by intro seg h; simp at h
  apart := List.Pairwise.nil

/-- The sorted segments of non-empty in-range matches: each one lies inside the
text and ends where or before the next one starts. -/
theorem sortSegments_chain (text : wxString) (rules : List SyntaxRule)
    (hrules : ∀ rule ∈ rules, ∀ m ∈ rule.pattern text, 0 < m.2 ∧ m.1 + m.2 ≤ text.length) :
    (∀ seg ∈ sortSegments (collectSegments text rules),
        0 < seg.length ∧ seg.start + seg.length ≤ text.length) ∧
      (sortSegments (collectSegments text rules)).Pairwise
        (fun a b => a.start + a.length ≤ b.start) := by
  have hc := Collected_foldl_applyRule text rules _ (Collected_init text) hrules
  have hperm : (sortSegments (collectSegments text rules)).Perm (collectSegments text rules) :=
    List.perm_insertionSort _ _
  haveI : IsTotal ColoredSegment (fun a b => a.start ≤ b.start) :=
    ⟨fun a b => Nat.le_total a.start b.start⟩
  haveI : IsTrans ColoredSegment (fun a b => a.start ≤ b.start) :=
    ⟨fun a b c h1 h2 => Nat.le_trans h1 h2⟩
  have hsorted : (sortSegments (collectSegments text rules)).Pairwise
      (fun a b => a.start ≤ b.start) :=
    List.sorted_insertionSort (fun a b : ColoredSegment => a.start ≤ b.start) _
  have hin : ∀ seg ∈ sortSegments (collectSegments text rules),
      0 < seg.length ∧ seg.start + seg.length ≤ text.length :=
    fun seg hseg => hc.inside seg (hperm.subset hseg)
  have hapart : (sortSegments (collectSegments text rules)).Pairwise ColoredSegment.Disjoint :=
    hperm.symm.pairwise hc.apart
      (fun {x y} hxy => by
        simp only [ColoredSegment.Disjoint] at hxy ⊢
        omega)
  have hpos : (sortSegments (collectSegments text rules)).Pairwise
      (fun a b => 0 < a.length ∧ 0 < b.length) := by
    rw [List.pairwise_iff_forall_sublist]
    intro a b hab
    have ha : a ∈ sortSegments (collectSegments text rules) := hab.subset (by simp)
    have hb : b ∈ sortSegments (collectSegments text rules) := hab.subset (by simp)
    exact ⟨(hin a ha).1, (hin b hb).1⟩
  refine ⟨hin, ?_⟩
  refine ((hsorted.and hapart).and hpos).imp ?_
  intro a b hab
  obtain ⟨⟨h1, h2⟩, h3, h4⟩ := hab
  simp only [ColoredSegment.Disjoint] at h2
  omega

theorem coversFrom_append (l1 l2 : List ColoredSegment) (a b c : Nat)
    (h1 : coversFrom a b l1 = true) (h2 : coversFrom b c l2 = true) :
    coversFrom a c (l1 ++ l2) = true := by
  induction l1 generalizing a with
  | nil =>
    simp only [coversFrom, beq_iff_eq] at h1
    subst h1
    exact h2
  | cons seg rest ih =>
    simp only [coversFrom, Bool.and_eq_true, beq_iff_eq] at h1
    simp only [List.cons_append, coversFrom, Bool.and_eq_true, beq_iff_eq]
    exact ⟨h1.1, ih _ h1.2⟩

theorem coversFrom_emitSegment (d : wxColour) (res : List ColoredSegment) (pos : Nat)
    (seg : ColoredSegment) (h : coversFrom 0 pos res = true) (hle : pos ≤ seg.start) :
    coversFrom 0 (emitSegment d (res, pos) seg).2 (emitSegment d (res, pos) seg).1 = true := by
  unfold emitSegment
  simp only
  split
  · rw [List.append_assoc]
    apply coversFrom_append _ _ _ _ _ h
    simp only [List.singleton_append, coversFrom, beq_self_eq_true, Bool.true_and,
      Bool.and_eq_true, beq_iff_eq, and_true]
    omega
  · have : pos = seg.start := by omega
    subst this
    apply coversFrom_append _ _ _ _ _ h
    simp [coversFrom]

theorem coversFrom_walk (d : wxColour) (n : Nat) (segs : List ColoredSegment) :
    ∀ (res : List ColoredSegment) (pos : Nat), coversFrom 0 pos res = true → pos ≤ n →
      (∀ seg ∈ segs, pos ≤ seg.start ∧ seg.start + seg.length ≤ n) →
      segs.Pairwise (fun a b => a.start + a.length ≤ b.start) →
      coversFrom 0 (segs.foldl (emitSegment d) (res, pos)).2
          (segs.foldl (emitSegment d) (res, pos)).1 = true ∧
        (segs.foldl (emitSegment d) (res, pos)).2 ≤ n := by
  induction segs with
  | nil => intro res pos h hn _ _; exact ⟨h, hn⟩
  | cons seg rest ih =>
    intro res pos h hn hsegs hchain
    rw [List.pairwise_cons] at hchain
    have hseg := hsegs seg (by simp)
    have hstep := coversFrom_emitSegment d res pos seg h hseg.1
    rw [List.foldl_cons]
    refine ih (emitSegment d (res, pos) seg).1 (emitSegment d (res, pos) seg).2 hstep hseg.2 ?_
      hchain.2
    intro x hx
    exact ⟨hchain.1 x hx, (hsegs x (List.mem_cons_of_mem _ hx)).2⟩

/-- When every match of every rule is non-empty and lies inside the text, the
result of GetColoredSegments is a contiguous cover of `[0, length)`. -/
theorem GetColoredSegments_covers_of_nonempty_matches (s : SyntaxTextCtrl)
    (hrules : ∀ rule ∈ s.m_syntaxRules, ∀ m ∈ rule.pattern s.m_text,
      0 < m.2 ∧ m.1 + m.2 ≤ s.m_text.length) :
    coversFrom 0 s.m_text.length (GetColoredSegments s) = true := by
  unfold GetColoredSegments
  split
  · rename_i hempty
    rw [List.isEmpty_iff] at hempty
    simp [hempty, coversFrom]
  · obtain ⟨hin, hchain⟩ := sortSegments_chain s.m_text s.m_syntaxRules hrules
    obtain ⟨hcov, hle⟩ := coversFrom_walk s.m_defaultTextColor s.m_text.length _ [] 0
      (by simp [coversFrom]) (Nat.zero_le _)
      (fun seg hseg => ⟨Nat.zero_le _, (hin seg hseg).2⟩) hchain
    simp only
    split
    · apply coversFrom_append _ _ _ _ _ hcov
      simp only [coversFrom, beq_self_eq_true, Bool.true_and, beq_iff_eq]
      omega
    · rename_i hlt
      have heq : (List.foldl (emitSegment s.m_defaultTextColor) ([], 0)
          (sortSegments (collectSegments s.m_text s.m_syntaxRules))).2 = s.m_text.length := by
        omega
      rw [← heq]
      exact hcov

/-- Without rules a non-empty text is one default-coloured segment. -/
theorem GetColoredSegments_no_rules (s : SyntaxTextCtrl) (hrules : s.m_syntaxRules = [])
    (htext : s.m_text ≠ []) :
    GetColoredSegments s = [⟨0, s.m_text.length, s.m_defaultTextColor⟩] := by
  have hlen : 0 < s.m_text.length := List.length_pos.mpr htext
  have hempty : s.m_text.isEmpty = false := by
    cases h : s.m_text with
    | nil => exact absurd h htext
    | cons c t => rfl
  simp [GetColoredSegments, hempty, hrules, collectSegments, sortSegments, hlen]

end SyntaxTextCtrl

namespace SyntaxTextCtrl

/-! ### Cursor movement with clamping -/

theorem wxString_erase_middle (L B : wxString) (x : Char) :
    wxString.erase L.length 1 (L ++ x :: B) = L ++ B := by
  induction L with
  | nil => rfl
  | cons c L ih => simp [wxString.erase, ih]

theorem DeleteChar_back_of_append (dc : Host) (s : SyntaxTextCtrl) (L B : wxString) (x : Char)
    (ht : s.m_text = L ++ x :: B) (hc : s.m_cursorPos = L.length + 1) :
    (DeleteChar dc false s).m_text = L ++ B ∧ (DeleteChar dc false s).m_cursorPos = L.length := by
  simp [DeleteChar, ht, hc, wxString_erase_middle]

theorem iterate_DeleteChar_back (dc : Host) (T : wxString) :
    ∀ (A B : wxString) (s : SyntaxTextCtrl), s.m_text = A ++ T ++ B →
      s.m_cursorPos = A.length + T.length →
      ((DeleteChar dc false)^[T.length] s).m_text = A ++ B ∧
        ((DeleteChar dc false)^[T.length] s).m_cursorPos = A.length := by
  induction T using List.reverseRecOn with
  | nil =>
    intro A B s ht hc
    rw [List.append_nil] at ht
    exact ⟨ht, hc⟩
  | append_singleton T x ih =>
    intro A B s ht hc
    have ht1 : s.m_text = (A ++ T) ++ x :: B := by simp [ht]
    have hc1 : s.m_cursorPos = (A ++ T).length + 1 := by
      simp only [hc, List.length_append, List.length_singleton]
      omega
    obtain ⟨h1, h2⟩ := DeleteChar_back_of_append dc s (A ++ T) B x ht1 hc1
    simp only [List.length_append, List.length_singleton, Function.iterate_succ_apply]
    exact ih A B (DeleteChar dc false s) h1 (by rw [h2, List.length_append])

/-- C12: with the cursor inside the text, InsertText(T) followed by |T| calls of
DeleteChar(false) yields the original text and the original cursor. -/
theorem InsertText_then_DeleteChar_restores (dc : Host) (T : wxString) (s : SyntaxTextCtrl)
    (hc : s.m_cursorPos ≤ s.m_text.length) :
    ((DeleteChar dc false)^[T.length] (InsertText dc T s)).m_text = s.m_text ∧
      ((DeleteChar dc false)^[T.length] (InsertText dc T s)).m_cursorPos = s.m_cursorPos := by
  have ht : (InsertText dc T s).m_text
      = s.m_text.take s.m_cursorPos ++ T ++ s.m_text.drop s.m_cursorPos := by
    simp [InsertText, wxString_insert_eq]
  have hlen : (s.m_text.take s.m_cursorPos).length = s.m_cursorPos := by
    rw [List.length_take]
    omega
  have hcur : (InsertText dc T s).m_cursorPos
      = (s.m_text.take s.m_cursorPos).length + T.length := by
    rw [hlen]
    rfl
  obtain ⟨h1, h2⟩ := iterate_DeleteChar_back dc T _ _ (InsertText dc T s) ht hcur
  rw [h1, h2, hlen, List.take_append_drop]
  exact ⟨rfl, rfl⟩

/-- Witness of C12: insert `XY` at cursor 2 of `hello`, then two Backspaces. -/
theorem InsertText_then_DeleteChar_restores_witness :
    shortHistoryCtrl.m_cursorPos ≤ shortHistoryCtrl.m_text.length ∧
      ((DeleteChar monoHost false)^[2] (InsertText monoHost "XY".toList shortHistoryCtrl)).m_text
        = "hello".toList ∧
      ((DeleteChar monoHost false)^[2]
        (InsertText monoHost "XY".toList shortHistoryCtrl)).m_cursorPos = 2 :=
  ⟨by decide,
    InsertText_then_DeleteChar_restores monoHost "XY".toList shortHistoryCtrl (by decide)⟩

/-! ### Highlighting: concrete texts -/

/-- C14 (failing input): on the text `ab`, with one rule whose matches are the
empty matches at the offsets 0, 1 and 2, GetColoredSegments returns five
segments of which three have length 0; on an empty text the result is the empty
list. -/
theorem GetColoredSegments_returns_empty_segments :
    GetColoredSegments digitsCtrl
        = [⟨0, 0, green⟩, ⟨0, 1, wxBLACK⟩, ⟨1, 0, green⟩, ⟨1, 1, wxBLACK⟩, ⟨2, 0, green⟩] ∧
      (GetColoredSegments digitsCtrl).any (fun seg => seg.length == 0) = true ∧
      (∀ s : SyntaxTextCtrl, s.m_text = [] → GetColoredSegments s = []) := by
  refine ⟨by decide, by decide, ?_⟩
  intro s h
  simp [GetColoredSegments, h]

/-- C15 (as stated, refuted): for the text `let x = 10` with the keyword match
(0,3) and the number match (8,2), the result of GetColoredSegments is not the
list (0,3,blue), (3,4,default), (8,2,green). -/
theorem GetColoredSegments_let_not_gap_four :
    GetColoredSegments letCtrl ≠ [⟨0, 3, blue⟩, ⟨3, 4, wxBLACK⟩, ⟨8, 2, green⟩] := by
  decide

/-- C15 (amended): for the text `let x = 10` with the keyword match (0,3) and
the number match (8,2), GetColoredSegments returns exactly (0,3,blue),
(3,5,default), (8,2,green), in this order: the gap between the two matches is
the five characters from offset 3 to offset 8. -/
theorem GetColoredSegments_let_example :
    GetColoredSegments letCtrl = [⟨0, 3, blue⟩, ⟨3, 5, wxBLACK⟩, ⟨8, 2, green⟩] ∧
      wxString.Mid 3 5 letCtrl.m_text = " x = ".toList := by
  constructor <;> decide

/-! ### The view -/

/-- C16: when the cursor pixel position and the visible width are not negative,
the scroll offset s that EnsureCursorVisible leaves satisfies s ≥ 0 and
0 ≤ cursor_px - s ≤ visible_width, whatever the scroll offset was before. -/
theorem EnsureCursorVisible_cursor_in_view (dc : Host) (s : SyntaxTextCtrl)
    (hpx : 0 ≤ dc.GetTextExtentWidth (wxString.Mid 0 s.m_cursorPos s.m_text))
    (hvw : 0 ≤ dc.GetClientWidth - s.m_leftMargin - 10) :
    0 ≤ (EnsureCursorVisible dc s).m_scrollOffset ∧
      0 ≤ dc.GetTextExtentWidth (wxString.Mid 0 s.m_cursorPos s.m_text)
            - (EnsureCursorVisible dc s).m_scrollOffset ∧
      dc.GetTextExtentWidth (wxString.Mid 0 s.m_cursorPos s.m_text)
            - (EnsureCursorVisible dc s).m_scrollOffset
          ≤ dc.GetClientWidth - s.m_leftMargin - 10 := by
  simp only [EnsureCursorVisible]
  split_ifs <;> omega

end SyntaxTextCtrl

namespace SyntaxTextCtrl

/-! ### From a point to an offset -/

end SyntaxTextCtrl

namespace SyntaxTextCtrl

/-! ### Accepting a completion -/

theorem findWordStart_spec (text : wxString) (pos : Nat) :
    (findWordStart text pos = 0 ∨ wxString.at text (findWordStart text pos - 1) = ' ') ∧
      ∀ j, findWordStart text pos < j → j ≤ pos → wxString.at text (j - 1) ≠ ' ' := by
  induction pos with
  | zero =>
    refine ⟨Or.inl rfl, ?_⟩
    intro j h1 h2
    simp only [findWordStart] at h1
    omega
  | succ n ih =>
    unfold findWordStart
    by_cases hsp : wxString.at text n = ' '
    · simp only [hsp, bne_self_eq_false, Bool.false_eq_true, if_false]
      refine ⟨Or.inr (by simpa using hsp), ?_⟩
      intro j h1 h2
      omega
    · have hne : (wxString.at text n != ' ') = true := by simpa using hsp
      simp only [hne, if_true]
      refine ⟨ih.1, ?_⟩
      intro j h1 h2
      by_cases hj : j = n + 1
      · subst hj
        simpa using hsp
      · exact ih.2 j h1 (by omega)

theorem pushCapped_getLast? (stack : List TextState) (e : TextState) :
    (pushCapped stack e).getLast? = some e := by
  by_cases h : stack.length < 100
  · rw [pushCapped_of_lt _ _ h, List.getLast?_concat]
  · rw [pushCapped_of_ge _ _ (by omega), List.getLast?_concat]

theorem HideCompletions_showing (s : SyntaxTextCtrl) (h : s.m_completionPopup.isSome = true) :
    (HideCompletions s).m_showingCompletions = false := by
  unfold HideCompletions
  cases hs : s.m_showingCompletions <;> simp [h, hs]

/-- C18: when the list is hidden AcceptCompletion changes nothing.  When it is
showing, with text t, cursor c inside the text and a non-empty highlighted
candidate, AcceptCompletion yields the text t[0..ws) ++ candidate ++ t[c..) and
the cursor ws + |candidate|, where ws is the largest index ≤ c with ws = 0 or
t[ws-1] the space character; the old (t, c) is on top of the undo stack and the
list is hidden. -/
theorem AcceptCompletion_spec (dc : Host) (s : SyntaxTextCtrl) :
    (s.m_showingCompletions = false → AcceptCompletion dc s = s) ∧
      (∀ popup : CompletionPopup, s.m_showingCompletions = true →
        s.m_completionPopup = some popup → popup.GetSelectedCompletion ≠ [] →
        s.m_cursorPos ≤ s.m_text.length →
        (findWordStart s.m_text s.m_cursorPos ≤ s.m_cursorPos ∧
            (findWordStart s.m_text s.m_cursorPos = 0 ∨
              wxString.at s.m_text (findWordStart s.m_text s.m_cursorPos - 1) = ' ') ∧
            ∀ j, findWordStart s.m_text s.m_cursorPos < j → j ≤ s.m_cursorPos →
              wxString.at s.m_text (j - 1) ≠ ' ') ∧
          (AcceptCompletion dc s).m_text
            = s.m_text.take (findWordStart s.m_text s.m_cursorPos)
              ++ popup.GetSelectedCompletion ++ s.m_text.drop s.m_cursorPos ∧
          (AcceptCompletion dc s).m_cursorPos
            = findWordStart s.m_text s.m_cursorPos + popup.GetSelectedCompletion.length ∧
          (AcceptCompletion dc s).m_undoStack.getLast? = some ⟨s.m_text, s.m_cursorPos⟩ ∧
          (AcceptCompletion dc s).m_showingCompletions = false) := by
  constructor
  · intro h
    unfold AcceptCompletion
    cases s.m_completionPopup <;> simp [h]
  · intro popup hshow hpop hcand hc
    have hws := findWordStart_le s.m_text s.m_cursorPos
    have hspec := findWordStart_spec s.m_text s.m_cursorPos
    have hempty : popup.GetSelectedCompletion.isEmpty = false := by
      cases h : popup.GetSelectedCompletion with
      | nil => exact absurd h hcand
      | cons c t => rfl
    have hacc : AcceptCompletion dc s
        = HideCompletions (InsertText dc popup.GetSelectedCompletion
            { SaveUndoState s with
              m_text := wxString.erase (findWordStart s.m_text s.m_cursorPos)
                (s.m_cursorPos - findWordStart s.m_text s.m_cursorPos) s.m_text
              m_cursorPos := findWordStart s.m_text s.m_cursorPos }) := by
      simp [AcceptCompletion, hpop, hshow, hempty, SaveUndoState]
    refine ⟨⟨hws, hspec.1, hspec.2⟩, ?_, ?_, ?_, ?_⟩
    · rw [hacc, HideCompletions_text]
      simp only [InsertText, EnsureCursorVisible_text, wxString_insert_eq, wxString_erase_eq]
      have h1 : findWordStart s.m_text s.m_cursorPos
          + (s.m_cursorPos - findWordStart s.m_text s.m_cursorPos) = s.m_cursorPos := by omega
      have h2 : (List.take (findWordStart s.m_text s.m_cursorPos) s.m_text).length
          = findWordStart s.m_text s.m_cursorPos := by
        rw [List.length_take]
        omega
      rw [h1, List.take_left' h2, List.drop_left' h2]
    · rw [hacc, HideCompletions_cursorPos]
      rfl
    · rw [hacc, HideCompletions_undoStack]
      exact pushCapped_getLast? _ _
    · rw [hacc]
      apply HideCompletions_showing
      simp [InsertText, EnsureCursorVisible, SaveUndoState, hpop]

/-- Witness of C18: text `pri`, cursor 3, list showing with `print` highlighted:
the text becomes `print`, the cursor 5, the undo stack top is (`pri`, 3) and the
list is hidden; on a widget whose list is hidden nothing changes. -/
theorem AcceptCompletion_spec_witness :
    AcceptCompletion monoHost shortHistoryCtrl = shortHistoryCtrl ∧
      (completionCtrl.m_showingCompletions = true ∧
        completionCtrl.m_cursorPos ≤ completionCtrl.m_text.length ∧
        (AcceptCompletion monoHost completionCtrl).m_text = "print".toList ∧
        (AcceptCompletion monoHost completionCtrl).m_cursorPos = 5 ∧
        (AcceptCompletion monoHost completionCtrl).m_undoStack.getLast?
          = some ⟨"pri".toList, 3⟩ ∧
        (AcceptCompletion monoHost completionCtrl).m_showingCompletions = false) :=
  ⟨(AcceptCompletion_spec monoHost shortHistoryCtrl).1 (by decide),
    by decide, by decide,
    ((AcceptCompletion_spec monoHost completionCtrl).2
      ⟨["print".toList, "println".toList], some 0⟩ (by decide) (by decide) (by decide)
      (by decide)).2⟩

/-! ### Empty history stacks -/

/-- C19: CanUndo is false exactly when the undo stack is empty, and Undo then
leaves the whole state unchanged; CanRedo is false exactly when the redo stack
is empty, and Redo then leaves the whole state unchanged. -/
theorem Undo_Redo_empty_stack (s : SyntaxTextCtrl) :
    (CanUndo s = false ↔ s.m_undoStack = []) ∧
      (s.m_undoStack = [] → Undo s = s) ∧
      (CanRedo s = false ↔ s.m_redoStack = []) ∧
      (s.m_redoStack = [] → Redo s = s) := by
  refine ⟨?_, Undo_of_nil s, ?_, Redo_of_nil s⟩
  · simp [CanUndo]
  · simp [CanRedo]

/-- Witness of C19: a fresh widget can neither undo nor redo, and Undo and Redo
leave it as it is. -/
theorem Undo_Redo_empty_stack_witness :
    CanUndo (construct "hello".toList) = false ∧
      Undo (construct "hello".toList) = construct "hello".toList ∧
      CanRedo (construct "hello".toList) = false ∧
      Redo (construct "hello".toList) = construct "hello".toList :=
  ⟨(Undo_Redo_empty_stack (construct "hello".toList)).1.mpr rfl,
    (Undo_Redo_empty_stack (construct "hello".toList)).2.1 rfl,
    (Undo_Redo_empty_stack (construct "hello".toList)).2.2.1.mpr rfl,
    (Undo_Redo_empty_stack (construct "hello".toList)).2.2.2 rfl⟩

end SyntaxTextCtrl

namespace SyntaxTextCtrl

/-! ### The redo history is linear -/

theorem AcceptCompletion_redoStack_of_mutates (dc : Host) (s : SyntaxTextCtrl)
    (h : (Op.AcceptCompletion dc).mutates s = true) :
    (AcceptCompletion dc s).m_redoStack = [] := by
  simp only [Op.mutates, Bool.and_eq_true] at h
  obtain ⟨hshow, hcand⟩ := h
  unfold AcceptCompletion
  cases hpop : s.m_completionPopup with
  | none => simp [hpop] at hcand
  | some popup =>
    simp only [hpop] at hcand
    simp [hshow, hcand, InsertText]

/-- Every text mutation leaves the redo stack empty. -/
theorem redoStack_of_mutates (op : Op) (s : SyntaxTextCtrl) (h : op.mutates s = true) :
    (op.run s).m_redoStack = [] := by
  cases op with
  | InsertText dc text => rfl
  | DeleteChar dc forward => rfl
  | SetValue dc value => rfl
  | SaveUndoState => rfl
  | DeleteSelection =>
    simp only [Op.mutates] at h
    simp [Op.run, DeleteSelection, h]
  | AcceptCompletion dc => exact AcceptCompletion_redoStack_of_mutates dc s h
  | SetSelection a b => simp [Op.mutates] at h
  | SelectAll => simp [Op.mutates] at h
  | MoveCursor dc delta select => simp [Op.mutates] at h
  | SetCursorPos dc pos select => simp [Op.mutates] at h
  | Undo => simp [Op.mutates] at h
  | Redo => simp [Op.mutates] at h
  | ShowCompletions cs => simp [Op.mutates] at h
  | HideCompletions => simp [Op.mutates] at h
  | UpdateCompletions => simp [Op.mutates] at h
  | SetCompletionFunction func => simp [Op.mutates] at h
  | SelectNext => simp [Op.mutates] at h
  | SelectPrevious => simp [Op.mutates] at h

theorem ShowCompletions_redoStack (cs : List wxString) (s : SyntaxTextCtrl) :
    (ShowCompletions cs s).m_redoStack = s.m_redoStack := by
  unfold ShowCompletions
  split
  · simp
  · rfl

theorem UpdateCompletions_redoStack (s : SyntaxTextCtrl) :
    (UpdateCompletions s).m_redoStack = s.m_redoStack := by
  unfold UpdateCompletions
  split
  · rfl
  · simp only
    split
    · exact ShowCompletions_redoStack _ _
    · simp

/-- Only Undo can make an empty redo stack non-empty. -/
theorem redoStack_nil_of_not_isUndo (op : Op) (s : SyntaxTextCtrl) (hop : op.isUndo = false)
    (h : s.m_redoStack = []) : (op.run s).m_redoStack = [] := by
  cases op with
  | InsertText dc text => rfl
  | DeleteChar dc forward => rfl
  | SetValue dc value => rfl
  | SaveUndoState => rfl
  | DeleteSelection =>
    simp only [Op.run, DeleteSelection]
    split
    · exact h
    · rfl
  | AcceptCompletion dc =>
    simp only [Op.run, AcceptCompletion]
    split
    · exact h
    · split
      · exact h
      · simp only [HideCompletions_redoStack]
        split
        · rfl
        · exact h
  | SetSelection a b => exact h
  | SelectAll => exact h
  | MoveCursor dc delta select =>
    simp only [Op.run, MoveCursor, EnsureCursorVisible_redoStack]
    split
    · exact h
    · split <;> exact h
  | SetCursorPos dc pos select =>
    simp only [Op.run, SetCursorPos, EnsureCursorVisible_redoStack]
    split <;> exact h
  | Undo => simp [Op.isUndo] at hop
  | Redo => simp only [Op.run]; rw [Redo_of_nil s h]; exact h
  | ShowCompletions cs => simp only [Op.run]; rw [ShowCompletions_redoStack]; exact h
  | HideCompletions => simp only [Op.run, HideCompletions_redoStack]; exact h
  | UpdateCompletions => simp only [Op.run]; rw [UpdateCompletions_redoStack]; exact h
  | SetCompletionFunction func => exact h
  | SelectNext => exact h
  | SelectPrevious => exact h

theorem quietAfterUndo_snoc (post : List Op) (op : Op) :
    ∀ s : SyntaxTextCtrl, quietAfterUndo (post ++ [op]) s
      = (quietAfterUndo post s &&
          (!op.mutates (post.foldl (fun s op => op.run s) s) && !op.isUndo)) := by
  induction post with
  | nil => intro s; simp [quietAfterUndo]
  | cons a rest ih =>
    intro s
    have h : quietAfterUndo (a :: (rest ++ [op])) s
        = (!a.mutates s && !a.isUndo && quietAfterUndo (rest ++ [op]) (a.run s)) := rfl
    have h2 : quietAfterUndo (a :: rest) s
        = (!a.mutates s && !a.isUndo && quietAfterUndo rest (a.run s)) := rfl
    rw [List.cons_append, h, h2, ih, List.foldl_cons]
    simp only [Bool.and_assoc]

theorem isUndo_eq (op : Op) (h : op.isUndo = true) : op = Op.Undo := by
  cases op <;> simp [Op.isUndo] at h
  rfl

theorem runOps_snoc (value : wxString) (ops : List Op) (op : Op) :
    runOps value (ops ++ [op]) = op.run (runOps value ops) := by
  simp [runOps, List.foldl_append]

/-- C20: every text mutation (InsertText, DeleteSelection with a selection,
DeleteChar, SetValue, AcceptCompletion with the list showing and a non-empty
candidate, SaveUndoState) leaves the redo stack empty; and when the redo stack is
not empty in a state reached from construction, the operations contain a call of
Undo after which there was neither a text mutation nor another Undo. -/
theorem redo_history_linear (value : wxString) (ops : List Op) :
    (∀ (op : Op) (s : SyntaxTextCtrl), op.mutates s = true → (op.run s).m_redoStack = []) ∧
      ((runOps value ops).m_redoStack ≠ [] →
        ∃ pre post, ops = pre ++ Op.Undo :: post ∧
          quietAfterUndo post (Undo (runOps value pre)) = true ∧
          runOps value ops = post.foldl (fun s op => op.run s) (Undo (runOps value pre))) := by
  refine ⟨redoStack_of_mutates, ?_⟩
  induction ops using List.reverseRecOn with
  | nil =>
    intro h
    exact absurd rfl h
  | append_singleton ops op ih =>
    intro h
    rw [runOps_snoc] at h
    cases hundo : op.isUndo with
    | true =>
      refine ⟨ops, [], ?_, rfl, ?_⟩
      · rw [isUndo_eq op hundo]
      · rw [runOps_snoc, isUndo_eq op hundo]
        rfl
    | false =>
      cases hmut : op.mutates (runOps value ops) with
      | true => exact absurd (redoStack_of_mutates op _ hmut) h
      | false =>
        have hprev : (runOps value ops).m_redoStack ≠ [] :=
          fun hnil => h (redoStack_nil_of_not_isUndo op _ hundo hnil)
        obtain ⟨pre, post, hops, hquiet, hrun⟩ := ih hprev
        refine ⟨pre, post ++ [op], ?_, ?_, ?_⟩
        · rw [hops]
          simp
        · rw [quietAfterUndo_snoc, hquiet, ← hrun, hmut, hundo]
          rfl
        · rw [runOps_snoc, hrun, List.foldl_append]
          rfl

/-- Witness of C20: InsertText clears the redo stack of a state that has a redo
entry; after SaveUndoState, InsertText, Undo and a cursor move the redo stack is
not empty, and the operations split at that Undo. -/
theorem redo_history_linear_witness :
    (Op.InsertText monoHost "x".toList).mutates fullHistoryCtrl = true ∧
      ((Op.InsertText monoHost "x".toList).run fullHistoryCtrl).m_redoStack = [] ∧
      (runOps [] sampleOps).m_redoStack ≠ [] ∧
      (∃ pre post, sampleOps = pre ++ Op.Undo :: post ∧
        quietAfterUndo post (Undo (runOps [] pre)) = true ∧
        runOps [] sampleOps = post.foldl (fun s op => op.run s) (Undo (runOps [] pre))) :=
  ⟨rfl, (redo_history_linear [] sampleOps).1 _ _ rfl, by decide,
    (redo_history_linear [] sampleOps).2 (by decide)⟩

end SyntaxTextCtrl

namespace SyntaxTextCtrl

/-- Witness of C16: fixed-pitch host with a visible width of 185, text `hello`,
cursor at 2 (16 pixels) and a scroll offset of 50 left by an earlier, longer
text: the new offset is 16. -/
theorem EnsureCursorVisible_cursor_in_view_witness :
    (0 : Int) ≤ monoHost.GetTextExtentWidth
        (wxString.Mid 0 shortHistoryCtrl.m_cursorPos shortHistoryCtrl.m_text) ∧
      (0 : Int) ≤ monoHost.GetClientWidth - shortHistoryCtrl.m_leftMargin - 10 ∧
      (EnsureCursorVisible monoHost { shortHistoryCtrl with m_scrollOffset := 50 }).m_scrollOffset
        = 16 ∧
      (0 : Int) ≤ (EnsureCursorVisible monoHost
        { shortHistoryCtrl with m_scrollOffset := 50 }).m_scrollOffset :=
  ⟨by decide, by decide, by decide,
    (EnsureCursorVisible_cursor_in_view monoHost { shortHistoryCtrl with m_scrollOffset := 50 }
      (by decide) (by decide)).1⟩

/-! ### The first rule wins -/

theorem alreadyMatched_eq_false_of (matched : List Bool) (start length : Nat)
    (h : ∀ i, start ≤ i → i < start + length → matched.getD i false = false) :
    alreadyMatched matched start length = false := by
  unfold alreadyMatched
  rw [List.any_eq_false]
  intro i hi
  rw [List.mem_range'_1] at hi
  rw [h i hi.1 hi.2]
  exact Bool.false_ne_true

/-- One match: the recorded segments are kept, a new one only has characters
that were not claimed, and claimed characters stay claimed. -/
theorem applyMatch_grows (text : wxString) (rule : SyntaxRule)
    (acc : List ColoredSegment × List Bool) (m : Nat × Nat) :
    (∃ more, (applyMatch text rule acc m).1 = acc.1 ++ more ∧
        ∀ seg ∈ more, ∀ i, seg.start ≤ i → i < seg.start + seg.length →
          acc.2.getD i false = false) ∧
      (∀ i, acc.2.getD i false = true → (applyMatch text rule acc m).2.getD i false = true) := by
  unfold applyMatch
  cases hm : alreadyMatched acc.2 m.1 m.2 with
  | true =>
    simp only [if_true]
    exact ⟨⟨[], by simp, by intro seg hseg; simp at hseg⟩, fun i h => h⟩
  | false =>
    simp only [Bool.false_eq_true, if_false]
    refine ⟨⟨[⟨m.1, m.2, rule.colorFunc (wxString.Mid m.1 m.2 text)⟩], rfl, ?_⟩, ?_⟩
    · intro seg hseg i h1 h2
      rw [List.mem_singleton] at hseg
      subst hseg
      exact alreadyMatched_eq_false acc.2 m.1 m.2 hm i h1 h2
    · intro i h
      rw [markMatched_getD, h, Bool.true_or]

theorem foldl_applyMatch_grows (text : wxString) (rule : SyntaxRule) (ms : List (Nat × Nat)) :
    ∀ acc : List ColoredSegment × List Bool,
      (∃ more, (ms.foldl (applyMatch text rule) acc).1 = acc.1 ++ more ∧
          ∀ seg ∈ more, ∀ i, seg.start ≤ i → i < seg.start + seg.length →
            acc.2.getD i false = false) ∧
        (∀ i, acc.2.getD i false = true →
          (ms.foldl (applyMatch text rule) acc).2.getD i false = true) := by
  induction ms with
  | nil =>
    intro acc
    exact ⟨⟨[], by simp, by intro seg hseg; simp at hseg⟩, fun i h => h⟩
  | cons m rest ih =>
    intro acc
    obtain ⟨⟨more1, h1, h1c⟩, h1m⟩ := applyMatch_grows text rule acc m
    obtain ⟨⟨more2, h2, h2c⟩, h2m⟩ := ih (applyMatch text rule acc m)
    refine ⟨⟨more1 ++ more2, ?_, ?_⟩, fun i h => h2m i (h1m i h)⟩
    · rw [List.foldl_cons, h2, h1, List.append_assoc]
    · intro seg hseg i hi1 hi2
      rw [List.mem_append] at hseg
      rcases hseg with hseg | hseg
      · exact h1c seg hseg i hi1 hi2
      · have hfalse := h2c seg hseg i hi1 hi2
        cases hacc : acc.2.getD i false with
        | false => rfl
        | true =>
          rw [h1m i hacc] at hfalse
          exact Bool.noConfusion hfalse

theorem foldl_applyRule_grows (text : wxString) (rules : List SyntaxRule) :
    ∀ acc : List ColoredSegment × List Bool,
      (∃ more, (rules.foldl (applyRule text) acc).1 = acc.1 ++ more ∧
          ∀ seg ∈ more, ∀ i, seg.start ≤ i → i < seg.start + seg.length →
            acc.2.getD i false = false) ∧
        (∀ i, acc.2.getD i false = true →
          (rules.foldl (applyRule text) acc).2.getD i false = true) := by
  induction rules with
  | nil =>
    intro acc
    exact ⟨⟨[], by simp, by intro seg hseg; simp at hseg⟩, fun i h => h⟩
  | cons rule rest ih =>
    intro acc
    obtain ⟨⟨more1, h1, h1c⟩, h1m⟩ := foldl_applyMatch_grows text rule (rule.pattern text) acc
    obtain ⟨⟨more2, h2, h2c⟩, h2m⟩ := ih (applyRule text acc rule)
    refine ⟨⟨more1 ++ more2, ?_, ?_⟩, fun i h => h2m i (h1m i h)⟩
    · rw [List.foldl_cons, h2]
      unfold applyRule
      rw [h1, List.append_assoc]
    · intro seg hseg i hi1 hi2
      rw [List.mem_append] at hseg
      rcases hseg with hseg | hseg
      · exact h1c seg hseg i hi1 hi2
      · have hfalse := h2c seg hseg i hi1 hi2
        cases hacc : acc.2.getD i false with
        | false => rfl
        | true =>
          have : (applyRule text acc rule).2.getD i false = true := h1m i hacc
          rw [this] at hfalse
          exact Bool.noConfusion hfalse

/-- The matches of one rule, applied to a mask in which only earlier matches of
the rule have claimed characters: a non-empty match inside the text that
overlaps no other match of the rule is recorded and its characters are
claimed. -/
theorem foldl_applyMatch_records (text : wxString) (rule : SyntaxRule) (ms : List (Nat × Nat)) :
    ∀ (acc : List ColoredSegment × List Bool) (done : List (Nat × Nat)),
      acc.2.length = text.length →
      (∀ i, acc.2.getD i false = true → ∃ p ∈ done, p.1 ≤ i ∧ i < p.1 + p.2) →
      (∀ p ∈ done, ∀ q ∈ ms, p.1 + p.2 ≤ q.1 ∨ q.1 + q.2 ≤ p.1) →
      ms.Pairwise (fun a b => a.1 + a.2 ≤ b.1 ∨ b.1 + b.2 ≤ a.1) →
      ∀ m ∈ ms, 0 < m.2 → m.1 + m.2 ≤ text.length →
        (⟨m.1, m.2, rule.colorFunc (wxString.Mid m.1 m.2 text)⟩ : ColoredSegment)
            ∈ (ms.foldl (applyMatch text rule) acc).1 ∧
          ∀ i, m.1 ≤ i → i < m.1 + m.2 →
            (ms.foldl (applyMatch text rule) acc).2.getD i false = true := by
  induction ms with
  | nil =>
    intro acc done _ _ _ _ m hm
    simp at hm
  | cons q rest ih =>
    intro acc done hlen hmask hdone hpair m hm hpos hin
    rw [List.pairwise_cons] at hpair
    rw [List.foldl_cons]
    by_cases hmq : m = q
    · subst hmq
      have hfree : alreadyMatched acc.2 m.1 m.2 = false := by
        apply alreadyMatched_eq_false_of
        intro i hi1 hi2
        cases hacc : acc.2.getD i false with
        | false => rfl
        | true =>
          obtain ⟨p, hp, hp1, hp2⟩ := hmask i hacc
          have := hdone p hp m (by simp)
          omega
      have hstep : applyMatch text rule acc m
          = (acc.1 ++ [⟨m.1, m.2, rule.colorFunc (wxString.Mid m.1 m.2 text)⟩],
              markMatched acc.2 m.1 m.2) := by
        simp [applyMatch, hfree]
      obtain ⟨⟨more, hmore, -⟩, hmono⟩ :=
        foldl_applyMatch_grows text rule rest (applyMatch text rule acc m)
      constructor
      · rw [hmore, hstep]
        simp
      · intro i hi1 hi2
        apply hmono
        rw [hstep]
        simp only [markMatched_getD, Bool.or_eq_true, decide_eq_true_eq]
        exact Or.inr ⟨hi1, hi2, by omega⟩
    · have hmrest : m ∈ rest := by
        rcases List.mem_cons.mp hm with h | h
        · exact absurd h hmq
        · exact h
      refine ih (applyMatch text rule acc q) (q :: done) ?_ ?_ ?_ hpair.2 m hmrest hpos hin
      · unfold applyMatch
        split
        · exact hlen
        · simp only [markMatched_length]
          exact hlen
      · intro i hi
        unfold applyMatch at hi
        split at hi
        · obtain ⟨p, hp, hp1⟩ := hmask i hi
          exact ⟨p, List.mem_cons_of_mem _ hp, hp1⟩
        · simp only [markMatched_getD, Bool.or_eq_true, decide_eq_true_eq] at hi
          rcases hi with hi | hi
          · obtain ⟨p, hp, hp1⟩ := hmask i hi
            exact ⟨p, List.mem_cons_of_mem _ hp, hp1⟩
          · exact ⟨q, by simp, hi.1, hi.2.1⟩
      · intro p hp x hx
        rcases List.mem_cons.mp hp with h | h
        · subst h
          exact hpair.1 x hx
        · exact hdone p h x (List.mem_cons_of_mem _ hx)

theorem mem_foldl_emitSegment (d : wxColour) (segs : List ColoredSegment) :
    ∀ acc : List ColoredSegment × Nat,
      (∀ x ∈ acc.1, x ∈ (segs.foldl (emitSegment d) acc).1) ∧
        (∀ x ∈ segs, x ∈ (segs.foldl (emitSegment d) acc).1) := by
  induction segs with
  | nil =>
    intro acc
    exact ⟨fun x h => h, fun x h => by simp at h⟩
  | cons seg rest ih =>
    intro acc
    obtain ⟨h1, h2⟩ := ih (emitSegment d acc seg)
    have hseg : seg ∈ (emitSegment d acc seg).1 := by simp [emitSegment]
    have hacc : ∀ x ∈ acc.1, x ∈ (emitSegment d acc seg).1 := by
      intro x hx
      unfold emitSegment
      simp only
      split <;> simp [hx]
    rw [List.foldl_cons]
    refine ⟨fun x hx => h1 x (hacc x hx), ?_⟩
    intro x hx
    rcases List.mem_cons.mp hx with h | h
    · rw [h]
      exact h1 seg hseg
    · exact h2 x h

/-- Every recorded segment is in the result, unchanged. -/
theorem mem_GetColoredSegments_of_collected (s : SyntaxTextCtrl) (seg : ColoredSegment)
    (htext : s.m_text ≠ []) (h : seg ∈ collectSegments s.m_text s.m_syntaxRules) :
    seg ∈ GetColoredSegments s := by
  have hempty : s.m_text.isEmpty = false := by
    cases ht : s.m_text with
    | nil => exact absurd ht htext
    | cons c t => rfl
  have hsorted : seg ∈ sortSegments (collectSegments s.m_text s.m_syntaxRules) :=
    (List.perm_insertionSort _ _).symm.subset h
  have hwalk := (mem_foldl_emitSegment s.m_defaultTextColor _ ([], 0)).2 seg hsorted
  unfold GetColoredSegments
  simp only [hempty, Bool.false_eq_true, if_false]
  split
  · exact List.mem_append_left _ hwalk
  · exact hwalk

/-- C13: when the matches of the first rule do not overlap each other, every
non-empty match of the first rule (inside the text) is in the result of
GetColoredSegments as a segment with exactly its start and length and with the
first rule's colour for the matched substring, whatever the later rules match;
the segments recorded for the later rules are in the result as well, and none of
them covers a character of that match. -/
theorem first_rule_wins (s : SyntaxTextCtrl) (rule : SyntaxRule) (rest : List SyntaxRule)
    (m : Nat × Nat) (hrules : s.m_syntaxRules = rule :: rest)
    (hapart : (rule.pattern s.m_text).Pairwise (fun a b => a.1 + a.2 ≤ b.1 ∨ b.1 + b.2 ≤ a.1))
    (hm : m ∈ rule.pattern s.m_text) (hpos : 0 < m.2) (hin : m.1 + m.2 ≤ s.m_text.length) :
    (⟨m.1, m.2, rule.colorFunc (wxString.Mid m.1 m.2 s.m_text)⟩ : ColoredSegment)
        ∈ GetColoredSegments s ∧
      ∃ later, collectSegments s.m_text s.m_syntaxRules
          = (applyRule s.m_text ([], List.replicate s.m_text.length false) rule).1 ++ later ∧
        ∀ seg ∈ later, seg ∈ GetColoredSegments s ∧
          ∀ i, m.1 ≤ i → i < m.1 + m.2 → ¬ (seg.start ≤ i ∧ i < seg.start + seg.length) := by
  have htext : s.m_text ≠ [] := by
    intro h
    rw [h] at hin
    simp at hin
    omega
  obtain ⟨hrec, hclaimed⟩ := foldl_applyMatch_records s.m_text rule (rule.pattern s.m_text)
    ([], List.replicate s.m_text.length false) [] (by simp)
    (by intro i hi; simp at hi) (by intro p hp; simp at hp) hapart m hm hpos hin
  obtain ⟨⟨later, hlater, hfree⟩, -⟩ := foldl_applyRule_grows s.m_text rest
    (applyRule s.m_text ([], List.replicate s.m_text.length false) rule)
  have hcollect : collectSegments s.m_text s.m_syntaxRules
      = (applyRule s.m_text ([], List.replicate s.m_text.length false) rule).1 ++ later := by
    rw [hrules]
    unfold collectSegments
    rw [List.foldl_cons, hlater]
  refine ⟨?_, later, hcollect, ?_⟩
  · apply mem_GetColoredSegments_of_collected s _ htext
    rw [hcollect]
    exact List.mem_append_left _ hrec
  · intro seg hseg
    constructor
    · apply mem_GetColoredSegments_of_collected s _ htext
      rw [hcollect]
      exact List.mem_append_right _ hseg
    · intro i hi1 hi2 hcover
      have h1 := hfree seg hseg i hcover.1 hcover.2
      have h2 : (applyRule s.m_text ([], List.replicate s.m_text.length false) rule).2.getD i false
          = true := hclaimed i hi1 hi2
      rw [h2] at h1
      exact Bool.noConfusion h1

/-- Witness of C13: in `let x` the keyword match (0,3) of the first rule is in
the result in blue, although the identifier rule matches the same range; the
result is (0,3,blue), (3,1,default), (4,1,green). -/
theorem first_rule_wins_witness :
    overlapCtrl.m_syntaxRules = keywordRule :: [identifierRule] ∧
      ((0, 3) : Nat × Nat) ∈ keywordRule.pattern overlapCtrl.m_text ∧
      (⟨0, 3, blue⟩ : ColoredSegment) ∈ GetColoredSegments overlapCtrl ∧
      GetColoredSegments overlapCtrl = [⟨0, 3, blue⟩, ⟨3, 1, wxBLACK⟩, ⟨4, 1, green⟩] :=
  ⟨rfl, by decide,
    (first_rule_wins overlapCtrl keywordRule [identifierRule] (0, 3) rfl
      (List.pairwise_singleton _ _) (by decide) (by decide) (by decide)).1,
    by decide⟩

end SyntaxTextCtrl

namespace SyntaxTextCtrl

/-! ### Replacing the whole text -/

/-- C21: SetValue(v) yields the text v, the cursor |v|, both selection ends at
|v|, an undo stack whose top entry is the old (text, cursor), an empty redo
stack, and the scroll offset that EnsureCursorVisible computes from the offset
0: max(0, w(v) - visible_width) when the text is wider than the view, 0
otherwise. -/
theorem SetValue_spec (dc : Host) (v : wxString) (s : SyntaxTextCtrl) :
    (SetValue dc v s).m_text = v ∧
      (SetValue dc v s).m_cursorPos = v.length ∧
      (SetValue dc v s).m_selectionStart = v.length ∧
      (SetValue dc v s).m_selectionEnd = v.length ∧
      (SetValue dc v s).m_undoStack.getLast? = some ⟨s.m_text, s.m_cursorPos⟩ ∧
      (SetValue dc v s).m_redoStack = [] ∧
      (SetValue dc v s).m_scrollOffset
        = (EnsureCursorVisible dc
            { s with m_text := v, m_cursorPos := v.length, m_scrollOffset := 0 }).m_scrollOffset ∧
      (SetValue dc v s).m_scrollOffset
        = max 0 (if dc.GetTextExtentWidth (wxString.Mid 0 v.length v)
                    > dc.GetClientWidth - s.m_leftMargin - 10
                 then dc.GetTextExtentWidth (wxString.Mid 0 v.length v)
                    - (dc.GetClientWidth - s.m_leftMargin - 10)
                 else if dc.GetTextExtentWidth (wxString.Mid 0 v.length v) < 0
                 then dc.GetTextExtentWidth (wxString.Mid 0 v.length v)
                 else 0) := by
  refine ⟨rfl, rfl, rfl, rfl, pushCapped_getLast? _ _, rfl, rfl, ?_⟩
  simp only [SetValue, EnsureCursorVisible, SaveUndoState, sub_zero]
  split_ifs <;> omega

/-! ### Pasting -/

theorem UpdateCompletions_eq (s : SyntaxTextCtrl) :
    ∃ popup showing, UpdateCompletions s
      = { s with m_completionPopup := popup, m_showingCompletions := showing } := by
  unfold UpdateCompletions
  split
  · exact ⟨s.m_completionPopup, s.m_showingCompletions, rfl⟩
  · simp only
    split
    · unfold ShowCompletions
      split
      · rcases HideCompletions_eq s with h | h
        · exact ⟨s.m_completionPopup, s.m_showingCompletions, h⟩
        · exact ⟨s.m_completionPopup, false, h⟩
      · exact ⟨_, _, rfl⟩
    · rcases HideCompletions_eq s with h | h
      · exact ⟨s.m_completionPopup, s.m_showingCompletions, h⟩
      · exact ⟨s.m_completionPopup, false, h⟩

@[simp] theorem UpdateCompletions_text (s : SyntaxTextCtrl) :
    (UpdateCompletions s).m_text = s.m_text := by
  obtain ⟨p, b, h⟩ := UpdateCompletions_eq s
  rw [h]

@[simp] theorem UpdateCompletions_cursorPos (s : SyntaxTextCtrl) :
    (UpdateCompletions s).m_cursorPos = s.m_cursorPos := by
  obtain ⟨p, b, h⟩ := UpdateCompletions_eq s
  rw [h]

@[simp] theorem UpdateCompletions_undoStack (s : SyntaxTextCtrl) :
    (UpdateCompletions s).m_undoStack = s.m_undoStack := by
  obtain ⟨p, b, h⟩ := UpdateCompletions_eq s
  rw [h]

/-- C24 (failing input): with an unavailable clipboard or one without text
PasteFromClipboard changes nothing, but with the empty text on the clipboard and
the selection (2,5) in `abcdef` it removes the selected characters, moves the
cursor to 2 and pushes an undo snapshot. -/
theorem PasteFromClipboard_empty_text_changes_state :
    (∀ (dc : Host) (s : SyntaxTextCtrl),
        PasteFromClipboard dc Clipboard.unavailable s = s ∧
          PasteFromClipboard dc Clipboard.nonText s = s) ∧
      (PasteFromClipboard monoHost (Clipboard.text []) selCtrl).m_text = "abf".toList ∧
      (PasteFromClipboard monoHost (Clipboard.text []) selCtrl).m_cursorPos = 2 ∧
      selCtrl.m_undoStack = [] ∧
      (PasteFromClipboard monoHost (Clipboard.text []) selCtrl).m_undoStack
        = [⟨"abcdef".toList, 5⟩] ∧
      fullHistoryCtrl.m_redoStack ≠ [] ∧
      (PasteFromClipboard monoHost (Clipboard.text []) fullHistoryCtrl).m_redoStack = [] := by
  refine ⟨fun dc s => ⟨rfl, rfl⟩, by decide, by decide, by decide, by decide, by decide, by decide⟩

/-! ### Deleting at a buffer boundary -/

/-- C25 (as stated, refuted): in `hello` with no selection and one redo entry,
DeleteChar(false) with the cursor at 0 and DeleteChar(true) with the cursor at
the end leave the text, the cursor, the selection and the undo stack as they
are, and empty the redo stack, which is therefore not left unchanged. -/
theorem DeleteChar_at_boundary_clears_redo :
    (HasSelection atStartCtrl = false ∧ atStartCtrl.m_cursorPos = 0 ∧
        atStartCtrl.m_redoStack = [⟨"later".toList, 0⟩] ∧
        (DeleteChar monoHost false atStartCtrl).m_redoStack = [] ∧
        (DeleteChar monoHost false atStartCtrl).m_redoStack ≠ atStartCtrl.m_redoStack ∧
        (DeleteChar monoHost false atStartCtrl).m_text = atStartCtrl.m_text ∧
        (DeleteChar monoHost false atStartCtrl).m_cursorPos = atStartCtrl.m_cursorPos ∧
        (DeleteChar monoHost false atStartCtrl).m_undoStack = atStartCtrl.m_undoStack) ∧
      (HasSelection atEndCtrl = false ∧ atEndCtrl.m_cursorPos = atEndCtrl.m_text.length ∧
        atEndCtrl.m_redoStack = [⟨"later".toList, 0⟩] ∧
        (DeleteChar monoHost true atEndCtrl).m_redoStack = [] ∧
        (DeleteChar monoHost true atEndCtrl).m_redoStack ≠ atEndCtrl.m_redoStack ∧
        (DeleteChar monoHost true atEndCtrl).m_text = atEndCtrl.m_text ∧
        (DeleteChar monoHost true atEndCtrl).m_cursorPos = atEndCtrl.m_cursorPos ∧
        (DeleteChar monoHost true atEndCtrl).m_undoStack = atEndCtrl.m_undoStack) := by
  refine ⟨⟨rfl, rfl, rfl, rfl, by decide, rfl, rfl, rfl⟩,
    ⟨rfl, rfl, rfl, rfl, by decide, rfl, rfl, rfl⟩⟩

/-- C25 (amended): for a state with an empty selection at the cursor,
DeleteChar(false) with the cursor at 0 and DeleteChar(true) with the cursor at
the text end leave the text, the cursor, both selection ends and the undo stack
as they are and leave the redo stack empty, so that all five are unchanged when
the redo stack is empty before; and the Backspace and Delete key handlers, which
do not call DeleteChar at a boundary, return the state as it is. -/
theorem DeleteChar_at_boundary (dc : Host) (clipboard : Clipboard) (fuel : Nat)
    (s : SyntaxTextCtrl) (hsel : s.m_selectionStart = s.m_selectionEnd)
    (hact : s.m_cursorPos = s.m_selectionEnd) :
    (s.m_cursorPos = 0 →
        (DeleteChar dc false s).m_text = s.m_text ∧
          (DeleteChar dc false s).m_cursorPos = s.m_cursorPos ∧
          (DeleteChar dc false s).m_selectionStart = s.m_selectionStart ∧
          (DeleteChar dc false s).m_selectionEnd = s.m_selectionEnd ∧
          (DeleteChar dc false s).m_undoStack = s.m_undoStack ∧
          (DeleteChar dc false s).m_redoStack = [] ∧
          (s.m_redoStack = [] → (DeleteChar dc false s).m_redoStack = s.m_redoStack) ∧
          ∀ event : wxKeyEvent, event.keyCode = WXK_BACK →
            OnKeyDown dc clipboard fuel event s = some s) ∧
      (s.m_text.length ≤ s.m_cursorPos →
        (DeleteChar dc true s).m_text = s.m_text ∧
          (DeleteChar dc true s).m_cursorPos = s.m_cursorPos ∧
          (DeleteChar dc true s).m_selectionStart = s.m_selectionStart ∧
          (DeleteChar dc true s).m_selectionEnd = s.m_selectionEnd ∧
          (DeleteChar dc true s).m_undoStack = s.m_undoStack ∧
          (DeleteChar dc true s).m_redoStack = [] ∧
          (s.m_redoStack = [] → (DeleteChar dc true s).m_redoStack = s.m_redoStack) ∧
          ∀ event : wxKeyEvent, event.keyCode = WXK_DELETE →
            OnKeyDown dc clipboard fuel event s = some s) := by
  have hnosel : HasSelection s = false := by simp [HasSelection, hsel]
  constructor
  · intro hc
    have hback : DeleteChar dc false s
        = EnsureCursorVisible dc
            { s with
              m_selectionStart := s.m_cursorPos
              m_selectionEnd := s.m_cursorPos
              m_redoStack := [] } := by
      simp [DeleteChar, hc]
    refine ⟨?_, ?_, ?_, ?_, ?_, ?_, ?_, ?_⟩
    · rw [hback]; rfl
    · rw [hback]; rfl
    · rw [hback]; exact hact.trans hsel.symm
    · rw [hback]; exact hact
    · rw [hback]; rfl
    · rw [hback]; rfl
    · intro hredo
      rw [hback, hredo]; rfl
    · intro event hk
      simp [OnKeyDown, hk, WXK_BACK, WXK_UP, WXK_DOWN, WXK_ESCAPE, hnosel, hc]
  · intro hc
    have hnot : ¬ s.m_cursorPos < s.m_text.length := by omega
    have hfwd : DeleteChar dc true s
        = EnsureCursorVisible dc
            { s with
              m_selectionStart := s.m_cursorPos
              m_selectionEnd := s.m_cursorPos
              m_redoStack := [] } := by
      simp [DeleteChar, hnot]
    refine ⟨?_, ?_, ?_, ?_, ?_, ?_, ?_, ?_⟩
    · rw [hfwd]; rfl
    · rw [hfwd]; rfl
    · rw [hfwd]; exact hact.trans hsel.symm
    · rw [hfwd]; exact hact
    · rw [hfwd]; rfl
    · rw [hfwd]; rfl
    · intro hredo
      rw [hfwd, hredo]; rfl
    · intro event hk
      simp [OnKeyDown, hk, WXK_BACK, WXK_DELETE, WXK_UP, WXK_DOWN, WXK_ESCAPE, hnosel, hnot]

/-- Witness of C25: `hello` with no selection, the cursor at 0 and a full undo
stack: DeleteChar(false) keeps the 100 undo entries and the selection (0,0), and
the Backspace handler returns the state itself; with the cursor at 5,
DeleteChar(true) leaves the redo stack empty. -/
theorem DeleteChar_at_boundary_witness :
    atStartCtrl.m_selectionStart = atStartCtrl.m_selectionEnd ∧
      atStartCtrl.m_cursorPos = atStartCtrl.m_selectionEnd ∧ atStartCtrl.m_cursorPos = 0 ∧
      (DeleteChar monoHost false atStartCtrl).m_undoStack = atStartCtrl.m_undoStack ∧
      OnKeyDown monoHost Clipboard.unavailable 0 backspaceKey atStartCtrl = some atStartCtrl ∧
      atEndCtrl.m_text.length ≤ atEndCtrl.m_cursorPos ∧
      (DeleteChar monoHost true atEndCtrl).m_redoStack = [] :=
  ⟨by decide, by decide, by decide,
    ((DeleteChar_at_boundary monoHost Clipboard.unavailable 0 atStartCtrl (by decide) (by decide)).1
      (by decide)).2.2.2.2.1,
    ((DeleteChar_at_boundary monoHost Clipboard.unavailable 0 atStartCtrl (by decide) (by decide)).1
      (by decide)).2.2.2.2.2.2.2 backspaceKey rfl,
    by decide,
    ((DeleteChar_at_boundary monoHost Clipboard.unavailable 0 atEndCtrl (by decide) (by decide)).2
      (by decide)).2.2.2.2.2.1⟩

/-! ### One key event, one undo step -/

theorem Undo_of_saved (r s : SyntaxTextCtrl)
    (h : r.m_undoStack = pushCapped s.m_undoStack (snapshot s)) :
    (Undo r).m_text = s.m_text ∧ (Undo r).m_cursorPos = s.m_cursorPos := by
  obtain ⟨B, hB⟩ := pushCapped_keeps_top s.m_undoStack [] (snapshot s) (by simp)
  simp only [List.append_nil, List.nil_append] at hB
  obtain ⟨h1, h2, -⟩ := Undo_of_snoc r B (snapshot s) (by rw [h, hB])
  exact ⟨h1, h2⟩

theorem DeleteSelection_undoStack (s : SyntaxTextCtrl) :
    (DeleteSelection s).m_undoStack = s.m_undoStack := by
  unfold DeleteSelection
  split <;> rfl

theorem DeleteChar_undoStack (dc : Host) (forward : Bool) (s : SyntaxTextCtrl) :
    (DeleteChar dc forward s).m_undoStack = s.m_undoStack := by
  simp only [DeleteChar, EnsureCursorVisible_undoStack]
  split
  · rfl
  · split <;> rfl

theorem typed_undoStack (dc : Host) (T : wxString) (s : SyntaxTextCtrl) :
    (UpdateCompletions (InsertText dc T (DeleteSelection (SaveUndoState s)))).m_undoStack
      = pushCapped s.m_undoStack (snapshot s) := by
  rw [UpdateCompletions_undoStack]
  show (DeleteSelection (SaveUndoState s)).m_undoStack = _
  rw [DeleteSelection_undoStack]
  rfl

/-- C28: after a printable character typed (with or without a selection), a
Backspace or Delete that has something to delete, or a paste of a clipboard text,
an immediately following Undo restores the text and the cursor that were present
before the key event; a Backspace at cursor 0 and a Delete at the text end with
no selection leave the state as it is, so they push no undo snapshot. -/
theorem key_event_is_one_undo_step (dc : Host) (clipboard : Clipboard) (fuel : Nat)
    (s : SyntaxTextCtrl) :
    (∀ event : wxKeyEvent, event.keyCode ≠ WXK_RETURN → event.keyCode ≠ WXK_NUMPAD_ENTER →
        event.keyCode ≠ WXK_TAB → event.cmdDown = false →
        WXK_SPACE ≤ (if event.unicodeKey == 0 then event.keyCode else (event.unicodeKey : Int)) →
        (Undo (OnChar dc event s)).m_text = s.m_text ∧
          (Undo (OnChar dc event s)).m_cursorPos = s.m_cursorPos) ∧
      (∀ event : wxKeyEvent, event.keyCode = WXK_BACK →
        (HasSelection s = true ∨ 0 < s.m_cursorPos) →
        ∃ r, OnKeyDown dc clipboard fuel event s = some r ∧
          (Undo r).m_text = s.m_text ∧ (Undo r).m_cursorPos = s.m_cursorPos) ∧
      (∀ event : wxKeyEvent, event.keyCode = WXK_BACK → HasSelection s = false →
        s.m_cursorPos = 0 → OnKeyDown dc clipboard fuel event s = some s) ∧
      (∀ event : wxKeyEvent, event.keyCode = WXK_DELETE →
        (HasSelection s = true ∨ s.m_cursorPos < s.m_text.length) →
        ∃ r, OnKeyDown dc clipboard fuel event s = some r ∧
          (Undo r).m_text = s.m_text ∧ (Undo r).m_cursorPos = s.m_cursorPos) ∧
      (∀ event : wxKeyEvent, event.keyCode = WXK_DELETE → HasSelection s = false →
        s.m_text.length ≤ s.m_cursorPos → OnKeyDown dc clipboard fuel event s = some s) ∧
      (∀ (event : wxKeyEvent) (data : wxString), event.keyCode = 86 →
        (event.cmdDown || event.controlDown) = true →
        ∃ r, OnKeyDown dc (Clipboard.text data) fuel event s = some r ∧
          (Undo r).m_text = s.m_text ∧ (Undo r).m_cursorPos = s.m_cursorPos) := by
  refine ⟨?_, ?_, ?_, ?_, ?_, ?_⟩
  · intro event h1 h2 h3 h4 h5
    have hr : OnChar dc event s
        = { UpdateCompletions (InsertText dc
              [Char.ofNat (if event.unicodeKey == 0 then event.keyCode
                else (event.unicodeKey : Int)).toNat]
              (DeleteSelection (SaveUndoState s))) with m_cursorVisible := true } := by
      have b1 : (event.keyCode == WXK_RETURN) = false := beq_eq_false_iff_ne.mpr h1
      have b2 : (event.keyCode == WXK_NUMPAD_ENTER) = false := beq_eq_false_iff_ne.mpr h2
      have b3 : (event.keyCode == WXK_TAB) = false := beq_eq_false_iff_ne.mpr h3
      simp only [OnChar, b1, b2, b3, h4, Bool.or_self, Bool.false_eq_true, if_false, ge_iff_le,
        if_pos h5]
    apply Undo_of_saved
    rw [hr]
    exact typed_undoStack dc _ s
  · intro event hk hdo
    by_cases hsel : HasSelection s = true
    · refine ⟨UpdateCompletions (DeleteSelection (SaveUndoState s)), ?_, ?_⟩
      · simp [OnKeyDown, hk, WXK_BACK, WXK_UP, WXK_DOWN, WXK_ESCAPE, hsel]
      · apply Undo_of_saved
        rw [UpdateCompletions_undoStack, DeleteSelection_undoStack]
        rfl
    · have hpos : 0 < s.m_cursorPos := by
        rcases hdo with h | h
        · exact absurd h hsel
        · exact h
      refine ⟨UpdateCompletions (DeleteChar dc false (SaveUndoState s)), ?_, ?_⟩
      · simp [OnKeyDown, hk, WXK_BACK, WXK_UP, WXK_DOWN, WXK_ESCAPE, hsel, hpos]
      · apply Undo_of_saved
        rw [UpdateCompletions_undoStack, DeleteChar_undoStack]
        rfl
  · intro event hk hsel hc
    simp [OnKeyDown, hk, WXK_BACK, WXK_UP, WXK_DOWN, WXK_ESCAPE, hsel, hc]
  · intro event hk hdo
    by_cases hsel : HasSelection s = true
    · refine ⟨UpdateCompletions (DeleteSelection (SaveUndoState s)), ?_, ?_⟩
      · simp [OnKeyDown, hk, WXK_BACK, WXK_DELETE, WXK_UP, WXK_DOWN, WXK_ESCAPE, hsel]
      · apply Undo_of_saved
        rw [UpdateCompletions_undoStack, DeleteSelection_undoStack]
        rfl
    · have hpos : s.m_cursorPos < s.m_text.length := by
        rcases hdo with h | h
        · exact absurd h hsel
        · exact h
      refine ⟨UpdateCompletions (DeleteChar dc true (SaveUndoState s)), ?_, ?_⟩
      · simp [OnKeyDown, hk, WXK_BACK, WXK_DELETE, WXK_UP, WXK_DOWN, WXK_ESCAPE, hsel, hpos]
      · apply Undo_of_saved
        rw [UpdateCompletions_undoStack, DeleteChar_undoStack]
        rfl
  · intro event hk hsel hc
    have : ¬ s.m_cursorPos < s.m_text.length := by omega
    simp [OnKeyDown, hk, WXK_BACK, WXK_DELETE, WXK_UP, WXK_DOWN, WXK_ESCAPE, hsel, this]
  · intro event data hk haccel
    refine ⟨PasteFromClipboard dc (Clipboard.text data) s, ?_, ?_⟩
    · simp only [Bool.or_eq_true] at haccel
      rcases haccel with h | h <;>
        simp [OnKeyDown, hk, WXK_UP, WXK_DOWN, WXK_ESCAPE, h]
    · apply Undo_of_saved
      exact typed_undoStack dc data s

/-- Witness of C28: typing `x` over the selection (2,5) of `abcdef` and undoing
gives back `abcdef` with the cursor at 5; Backspace in `hello` at cursor 2 and
Undo give back `hello` with the cursor at 2; Backspace at cursor 0 without a
selection changes nothing. -/
theorem key_event_is_one_undo_step_witness :
    ((Undo (OnChar monoHost typeX selCtrl)).m_text = "abcdef".toList ∧
        (Undo (OnChar monoHost typeX selCtrl)).m_cursorPos = 5) ∧
      (∃ r, OnKeyDown monoHost Clipboard.unavailable 0 backspaceKey shortHistoryCtrl = some r ∧
        (Undo r).m_text = "hello".toList ∧ (Undo r).m_cursorPos = 2) ∧
      OnKeyDown monoHost Clipboard.unavailable 0 backspaceKey atStartCtrl = some atStartCtrl :=
  ⟨(key_event_is_one_undo_step monoHost Clipboard.unavailable 0 selCtrl).1 typeX
      (by decide) (by decide) (by decide) rfl (by decide),
    (key_event_is_one_undo_step monoHost Clipboard.unavailable 0 shortHistoryCtrl).2.1
      backspaceKey rfl (Or.inr (by decide)),
    (key_event_is_one_undo_step monoHost Clipboard.unavailable 0 atStartCtrl).2.2.1
      backspaceKey rfl rfl rfl⟩

end SyntaxTextCtrl

namespace SyntaxTextCtrl

/-! ### The two history stacks share the capacity -/

theorem pushCapped_length_le (stack : List TextState) (e : TextState)
    (h : stack.length ≤ 100) : (pushCapped stack e).length ≤ 100 := by
  by_cases hlt : stack.length < 100
  · rw [pushCapped_of_lt _ _ hlt]
    simp only [List.length_append, List.length_singleton]
    omega
  · rw [pushCapped_of_ge _ _ (by omega)]
    simp only [List.length_append, List.length_singleton, List.length_tail]
    omega

theorem stacks_SaveUndoState (s : SyntaxTextCtrl)
    (h : s.m_undoStack.length + s.m_redoStack.length ≤ 100) :
    (SaveUndoState s).m_undoStack.length + (SaveUndoState s).m_redoStack.length ≤ 100 := by
  have := pushCapped_length_le s.m_undoStack ⟨s.m_text, s.m_cursorPos⟩ (by omega)
  simpa [SaveUndoState] using this

theorem stacks_InsertText (dc : Host) (text : wxString) (s : SyntaxTextCtrl)
    (h : s.m_undoStack.length + s.m_redoStack.length ≤ 100) :
    (InsertText dc text s).m_undoStack.length + (InsertText dc text s).m_redoStack.length
      ≤ 100 := by
  show s.m_undoStack.length + 0 ≤ 100
  omega

theorem stacks_DeleteSelection (s : SyntaxTextCtrl)
    (h : s.m_undoStack.length + s.m_redoStack.length ≤ 100) :
    (DeleteSelection s).m_undoStack.length + (DeleteSelection s).m_redoStack.length ≤ 100 := by
  unfold DeleteSelection
  split
  · exact h
  · show s.m_undoStack.length + 0 ≤ 100
    omega

theorem stacks_DeleteChar (dc : Host) (forward : Bool) (s : SyntaxTextCtrl)
    (h : s.m_undoStack.length + s.m_redoStack.length ≤ 100) :
    (DeleteChar dc forward s).m_undoStack.length + (DeleteChar dc forward s).m_redoStack.length
      ≤ 100 := by
  rw [DeleteChar_undoStack]
  have : (DeleteChar dc forward s).m_redoStack = [] := rfl
  rw [this]
  simp only [List.length_nil]
  omega

theorem stacks_Undo (s : SyntaxTextCtrl)
    (h : s.m_undoStack.length + s.m_redoStack.length ≤ 100) :
    (Undo s).m_undoStack.length + (Undo s).m_redoStack.length
        = s.m_undoStack.length + s.m_redoStack.length ∧
      (s.m_undoStack ≠ [] →
        pushCapped s.m_redoStack (snapshot s) = s.m_redoStack ++ [snapshot s]) := by
  rcases snoc_cases s.m_undoStack with hnil | ⟨U, x, hU⟩
  · rw [Undo_of_nil s hnil]
    exact ⟨rfl, fun hne => absurd hnil hne⟩
  · obtain ⟨-, -, -, -, hu, hr⟩ := Undo_of_snoc s U x hU
    have hlen : s.m_undoStack.length = U.length + 1 := by rw [hU]; simp
    have hpush := pushCapped_of_lt s.m_redoStack (snapshot s) (by omega)
    refine ⟨?_, fun _ => hpush⟩
    rw [hu, hr, hpush, hlen]
    simp only [List.length_append, List.length_singleton]
    omega

theorem stacks_Redo (s : SyntaxTextCtrl)
    (h : s.m_undoStack.length + s.m_redoStack.length ≤ 100) :
    (Redo s).m_undoStack.length + (Redo s).m_redoStack.length
        = s.m_undoStack.length + s.m_redoStack.length ∧
      (s.m_redoStack ≠ [] →
        pushCapped s.m_undoStack (snapshot s) = s.m_undoStack ++ [snapshot s]) := by
  rcases snoc_cases s.m_redoStack with hnil | ⟨R, x, hR⟩
  · rw [Redo_of_nil s hnil]
    exact ⟨rfl, fun hne => absurd hnil hne⟩
  · obtain ⟨-, -, -, -, hr, hu⟩ := Redo_of_snoc s R x hR
    have hlen : s.m_redoStack.length = R.length + 1 := by rw [hR]; simp
    have hpush := pushCapped_of_lt s.m_undoStack (snapshot s) (by omega)
    refine ⟨?_, fun _ => hpush⟩
    rw [hu, hr, hpush, hlen]
    simp only [List.length_append, List.length_singleton]
    omega

theorem stacks_AcceptCompletion (dc : Host) (s : SyntaxTextCtrl)
    (h : s.m_undoStack.length + s.m_redoStack.length ≤ 100) :
    (AcceptCompletion dc s).m_undoStack.length + (AcceptCompletion dc s).m_redoStack.length
      ≤ 100 := by
  unfold AcceptCompletion
  split
  · exact h
  · split
    · exact h
    · simp only [HideCompletions_undoStack, HideCompletions_redoStack]
      split
      · have := pushCapped_length_le s.m_undoStack ⟨s.m_text, s.m_cursorPos⟩ (by omega)
        simpa [InsertText, SaveUndoState] using this
      · exact h

theorem ShowCompletions_undoStack (cs : List wxString) (s : SyntaxTextCtrl) :
    (ShowCompletions cs s).m_undoStack = s.m_undoStack := by
  unfold ShowCompletions
  split
  · simp
  · rfl

theorem MoveCursor_stacks (dc : Host) (delta : Int) (select : Bool) (s : SyntaxTextCtrl) :
    (MoveCursor dc delta select s).m_undoStack = s.m_undoStack ∧
      (MoveCursor dc delta select s).m_redoStack = s.m_redoStack := by
  simp only [MoveCursor, EnsureCursorVisible_undoStack, EnsureCursorVisible_redoStack]
  split
  · exact ⟨rfl, rfl⟩
  · split <;> exact ⟨rfl, rfl⟩

theorem SetCursorPos_stacks (dc : Host) (pos : Nat) (select : Bool) (s : SyntaxTextCtrl) :
    (SetCursorPos dc pos select s).m_undoStack = s.m_undoStack ∧
      (SetCursorPos dc pos select s).m_redoStack = s.m_redoStack := by
  simp only [SetCursorPos, EnsureCursorVisible_undoStack, EnsureCursorVisible_redoStack]
  split <;> exact ⟨rfl, rfl⟩

theorem stacks_run (op : Op) (s : SyntaxTextCtrl)
    (h : s.m_undoStack.length + s.m_redoStack.length ≤ 100) :
    (op.run s).m_undoStack.length + (op.run s).m_redoStack.length ≤ 100 := by
  cases op with
  | SetValue dc value => exact stacks_SaveUndoState s h
  | SetSelection a b => exact h
  | SelectAll => exact h
  | InsertText dc text => exact stacks_InsertText dc text s h
  | DeleteSelection => exact stacks_DeleteSelection s h
  | DeleteChar dc forward => exact stacks_DeleteChar dc forward s h
  | MoveCursor dc delta select =>
    show (MoveCursor dc delta select s).m_undoStack.length
      + (MoveCursor dc delta select s).m_redoStack.length ≤ 100
    rw [(MoveCursor_stacks dc delta select s).1, (MoveCursor_stacks dc delta select s).2]
    exact h
  | SetCursorPos dc pos select =>
    show (SetCursorPos dc pos select s).m_undoStack.length
      + (SetCursorPos dc pos select s).m_redoStack.length ≤ 100
    rw [(SetCursorPos_stacks dc pos select s).1, (SetCursorPos_stacks dc pos select s).2]
    exact h
  | SaveUndoState => exact stacks_SaveUndoState s h
  | Undo =>
    show (Undo s).m_undoStack.length + (Undo s).m_redoStack.length ≤ 100
    rw [(stacks_Undo s h).1]
    exact h
  | Redo =>
    show (Redo s).m_undoStack.length + (Redo s).m_redoStack.length ≤ 100
    rw [(stacks_Redo s h).1]
    exact h
  | AcceptCompletion dc => exact stacks_AcceptCompletion dc s h
  | ShowCompletions cs =>
    show (ShowCompletions cs s).m_undoStack.length + (ShowCompletions cs s).m_redoStack.length
      ≤ 100
    rw [ShowCompletions_undoStack, ShowCompletions_redoStack]
    exact h
  | HideCompletions =>
    show (HideCompletions s).m_undoStack.length + (HideCompletions s).m_redoStack.length ≤ 100
    rw [HideCompletions_undoStack, HideCompletions_redoStack]
    exact h
  | UpdateCompletions =>
    show (UpdateCompletions s).m_undoStack.length + (UpdateCompletions s).m_redoStack.length
      ≤ 100
    rw [UpdateCompletions_undoStack, UpdateCompletions_redoStack]
    exact h
  | SetCompletionFunction func => exact h
  | SelectNext => exact h
  | SelectPrevious => exact h

theorem stacks_foldl (ops : List Op) :
    ∀ s : SyntaxTextCtrl, s.m_undoStack.length + s.m_redoStack.length ≤ 100 →
      (ops.foldl (fun s op => op.run s) s).m_undoStack.length
        + (ops.foldl (fun s op => op.run s) s).m_redoStack.length ≤ 100 := by
  induction ops with
  | nil => intro s h; exact h
  | cons op rest ih => intro s h; exact ih _ (stacks_run op s h)

/-- C29: in every state reached from a fresh widget by SaveUndoState,
InsertText, DeleteSelection, DeleteChar, SetValue, AcceptCompletion, Undo and
Redo (and the other operations, which leave the stacks alone) the sizes of the
undo and the redo stack add up to at most 100.  So Undo pushes on the redo stack
without dropping its oldest entry, Redo does the same on the undo stack, and
both keep the total number of history entries. -/
theorem history_stacks_share_capacity (value : wxString) (ops : List Op) :
    (runOps value ops).m_undoStack.length + (runOps value ops).m_redoStack.length ≤ 100 ∧
      ((runOps value ops).m_undoStack ≠ [] →
        pushCapped (runOps value ops).m_redoStack (snapshot (runOps value ops))
            = (runOps value ops).m_redoStack ++ [snapshot (runOps value ops)] ∧
          (Undo (runOps value ops)).m_undoStack.length
              + (Undo (runOps value ops)).m_redoStack.length
            = (runOps value ops).m_undoStack.length + (runOps value ops).m_redoStack.length) ∧
      ((runOps value ops).m_redoStack ≠ [] →
        pushCapped (runOps value ops).m_undoStack (snapshot (runOps value ops))
            = (runOps value ops).m_undoStack ++ [snapshot (runOps value ops)] ∧
          (Redo (runOps value ops)).m_undoStack.length
              + (Redo (runOps value ops)).m_redoStack.length
            = (runOps value ops).m_undoStack.length + (runOps value ops).m_redoStack.length) := by
  have h : (runOps value ops).m_undoStack.length + (runOps value ops).m_redoStack.length ≤ 100 :=
    stacks_foldl ops (construct value) (by simp [construct])
  exact ⟨h, fun hne => ⟨(stacks_Undo _ h).2 hne, (stacks_Undo _ h).1⟩,
    fun hne => ⟨(stacks_Redo _ h).2 hne, (stacks_Redo _ h).1⟩⟩

/-- Witness of C29: after SaveUndoState, InsertText, Undo and a cursor move the
undo stack is empty and the redo stack holds one entry; Redo pushes on the undo
stack without eviction and keeps the total of one entry. -/
theorem history_stacks_share_capacity_witness :
    (runOps [] sampleOps).m_redoStack ≠ [] ∧
      (runOps [] sampleOps).m_undoStack.length + (runOps [] sampleOps).m_redoStack.length = 1 ∧
      (Redo (runOps [] sampleOps)).m_undoStack.length
          + (Redo (runOps [] sampleOps)).m_redoStack.length
        = (runOps [] sampleOps).m_undoStack.length + (runOps [] sampleOps).m_redoStack.length :=
  ⟨by decide, by decide,
    ((history_stacks_share_capacity [] sampleOps).2.2 (by decide)).2⟩

end SyntaxTextCtrl

namespace SyntaxTextCtrl

/-! ### Word navigation -/

end SyntaxTextCtrl

namespace SyntaxTextCtrl

/-! ### Termination of the word-navigation loops -/

end SyntaxTextCtrl

namespace SyntaxTextCtrl

/-! ### The result as a partition of the text -/

/-- A contiguous cover by non-empty segments: the segments lie in the covered
range, each one ends where or before the later ones start, and every offset of
the range is in one of them. -/
theorem coversFrom_partition (l : List ColoredSegment) :
    ∀ a b : Nat, coversFrom a b l = true → (∀ seg ∈ l, 0 < seg.length) →
      a ≤ b ∧ (∀ seg ∈ l, a ≤ seg.start ∧ seg.start + seg.length ≤ b) ∧
        l.Pairwise (fun x y => x.start + x.length ≤ y.start) ∧
        ∀ i, a ≤ i → i < b → ∃ seg ∈ l, seg.start ≤ i ∧ i < seg.start + seg.length := by
  induction l with
  | nil =>
    intro a b h _
    simp only [coversFrom, beq_iff_eq] at h
    subst h
    refine ⟨Nat.le_refl _, by intro seg hs; simp at hs, List.Pairwise.nil, ?_⟩
    intro i h1 h2
    omega
  | cons seg rest ih =>
    intro a b h hpos
    simp only [coversFrom, Bool.and_eq_true, beq_iff_eq] at h
    obtain ⟨hstart, hrest⟩ := h
    have hlen := hpos seg (by simp)
    obtain ⟨hle, hin, hpair, hcover⟩ :=
      ih (seg.start + seg.length) b hrest (fun x hx => hpos x (List.mem_cons_of_mem _ hx))
    refine ⟨by omega, ?_, ?_, ?_⟩
    · intro x hx
      rcases List.mem_cons.mp hx with h | h
      · subst h
        exact ⟨by omega, hle⟩
      · have := hin x h
        omega
    · rw [List.pairwise_cons]
      exact ⟨fun x hx => (hin x hx).1, hpair⟩
    · intro i h1 h2
      by_cases hi : i < seg.start + seg.length
      · exact ⟨seg, by simp, by omega, hi⟩
      · obtain ⟨x, hx, hx1, hx2⟩ := hcover i (by omega) h2
        exact ⟨x, List.mem_cons_of_mem _ hx, hx1, hx2⟩

/-- What the walk emits: the segments it is given, and fillers that are
default-coloured and not empty. -/
theorem foldl_emitSegment_origin (d : wxColour) (segs : List ColoredSegment) :
    ∀ (acc : List ColoredSegment × Nat) (x : ColoredSegment),
      x ∈ (segs.foldl (emitSegment d) acc).1 →
      x ∈ acc.1 ∨ x ∈ segs ∨ (x.color = d ∧ 0 < x.length) := by
  induction segs with
  | nil => intro acc x h; exact Or.inl h
  | cons seg rest ih =>
    intro acc x h
    rw [List.foldl_cons] at h
    rcases ih _ x h with h1 | h1 | h1
    · unfold emitSegment at h1
      simp only at h1
      split at h1
      · simp only [List.mem_append, List.mem_singleton] at h1
        rcases h1 with (h2 | h2) | h2
        · exact Or.inl h2
        · subst h2
          exact Or.inr (Or.inr ⟨rfl, by simp only; omega⟩)
        · subst h2
          exact Or.inr (Or.inl (by simp))
      · simp only [List.mem_append, List.mem_singleton] at h1
        rcases h1 with h2 | h2
        · exact Or.inl h2
        · subst h2
          exact Or.inr (Or.inl (by simp))
    · exact Or.inr (Or.inl (List.mem_cons_of_mem _ h1))
    · exact Or.inr (Or.inr h1)

/-- Every segment of the result is a recorded segment or a filler, which is
default-coloured and not empty. -/
theorem GetColoredSegments_origin (s : SyntaxTextCtrl) (x : ColoredSegment)
    (h : x ∈ GetColoredSegments s) :
    x ∈ collectSegments s.m_text s.m_syntaxRules ∨
      (x.color = s.m_defaultTextColor ∧ 0 < x.length) := by
  unfold GetColoredSegments at h
  split at h
  · simp at h
  · simp only at h
    have hwalk : ∀ y, y ∈ (List.foldl (emitSegment s.m_defaultTextColor) ([], 0)
        (sortSegments (collectSegments s.m_text s.m_syntaxRules))).1 →
        y ∈ collectSegments s.m_text s.m_syntaxRules ∨
          (y.color = s.m_defaultTextColor ∧ 0 < y.length) := by
      intro y hy
      rcases foldl_emitSegment_origin _ _ _ y hy with h1 | h1 | h1
      · simp at h1
      · exact Or.inl ((List.perm_insertionSort _ _).subset h1)
      · exact Or.inr h1
    split at h
    · rw [List.mem_append, List.mem_singleton] at h
      rcases h with h1 | h1
      · exact hwalk x h1
      · subst h1
        exact Or.inr ⟨rfl, by simp only; omega⟩
    · exact hwalk x h

/-- C26: for rules whose matches all have positive length and lie inside the
text, the result of GetColoredSegments has segments of positive length, each
ending where or before the later ones start (so the start offsets increase
strictly and no two segments overlap), it is a contiguous cover of [0, length)
without gap, and every character in no recorded match lies in a default-coloured
segment. For the empty text the result is empty and all of this holds
trivially, so the text is not required to be non-empty. -/
theorem GetColoredSegments_partition (s : SyntaxTextCtrl)
    (hrules : ∀ rule ∈ s.m_syntaxRules, ∀ m ∈ rule.pattern s.m_text,
      0 < m.2 ∧ m.1 + m.2 ≤ s.m_text.length) :
    (GetColoredSegments s).Pairwise (fun a b => a.start < b.start) ∧
      (GetColoredSegments s).Pairwise (fun a b => a.start + a.length ≤ b.start) ∧
      (∀ seg ∈ GetColoredSegments s, 0 < seg.length ∧ seg.start + seg.length ≤ s.m_text.length) ∧
      coversFrom 0 s.m_text.length (GetColoredSegments s) = true ∧
      (∀ i, i < s.m_text.length →
        (¬ ∃ seg ∈ collectSegments s.m_text s.m_syntaxRules,
            seg.start ≤ i ∧ i < seg.start + seg.length) →
        ∃ seg ∈ GetColoredSegments s, seg.start ≤ i ∧ i < seg.start + seg.length ∧
          seg.color = s.m_defaultTextColor) := by
  have hcover := GetColoredSegments_covers_of_nonempty_matches s hrules
  have hcollected := Collected_foldl_applyRule s.m_text s.m_syntaxRules _
    (Collected_init s.m_text) hrules
  have hpos : ∀ seg ∈ GetColoredSegments s, 0 < seg.length := by
    intro seg hseg
    rcases GetColoredSegments_origin s seg hseg with h | h
    · exact (hcollected.inside seg h).1
    · exact h.2
  obtain ⟨-, hin, hpair, hall⟩ := coversFrom_partition _ 0 s.m_text.length hcover hpos
  refine ⟨?_, hpair, fun seg hseg => ⟨hpos seg hseg, (hin seg hseg).2⟩, hcover, ?_⟩
  · have hboth := hpair.and (List.pairwise_iff_forall_sublist.mpr
      (fun {a b} hab => hpos a (hab.subset (by simp))) :
        (GetColoredSegments s).Pairwise (fun a _ => 0 < a.length))
    exact hboth.imp (fun {a b} h => by omega)
  · intro i hi hfree
    obtain ⟨seg, hseg, h1, h2⟩ := hall i (Nat.zero_le _) hi
    refine ⟨seg, hseg, h1, h2, ?_⟩
    rcases GetColoredSegments_origin s seg hseg with h | h
    · exact absurd ⟨seg, h, h1, h2⟩ hfree
    · exact h.1

/-- Witness of C26: the text `let x` with the keyword rule and the identifier
rule; the result is (0,3,blue), (3,1,default), (4,1,green) and the space at
offset 3, which is in no recorded match, lies in the default-coloured segment. -/
theorem GetColoredSegments_partition_witness :
    overlapCtrl.m_text ≠ [] ∧
      GetColoredSegments overlapCtrl = [⟨0, 3, blue⟩, ⟨3, 1, wxBLACK⟩, ⟨4, 1, green⟩] ∧
      (GetColoredSegments overlapCtrl).Pairwise (fun a b => a.start < b.start) ∧
      coversFrom 0 overlapCtrl.m_text.length (GetColoredSegments overlapCtrl) = true :=
  have hrules : ∀ rule ∈ overlapCtrl.m_syntaxRules, ∀ m ∈ rule.pattern overlapCtrl.m_text,
      0 < m.2 ∧ m.1 + m.2 ≤ overlapCtrl.m_text.length := by
    intro rule hrule m hm
    simp only [overlapCtrl, List.mem_cons, List.mem_singleton, List.not_mem_nil, or_false]
      at hrule
    rcases hrule with h | h
    · subst h
      simp only [keywordRule, List.mem_singleton] at hm
      subst hm
      decide
    · subst h
      simp only [identifierRule, List.mem_cons, List.mem_singleton, List.not_mem_nil, or_false]
        at hm
      rcases hm with h | h <;> subst h <;> decide
  ⟨by decide, by decide,
    (GetColoredSegments_partition overlapCtrl hrules).1,
    (GetColoredSegments_partition overlapCtrl hrules).2.2.2.1⟩

/-! ### No partial claiming -/

theorem alreadyMatched_eq_true_of (matched : List Bool) (start length i : Nat)
    (h1 : start ≤ i) (h2 : i < start + length) (h : matched.getD i false = true) :
    alreadyMatched matched start length = true := by
  unfold alreadyMatched
  rw [List.any_eq_true]
  exact ⟨i, List.mem_range'_1.mpr ⟨h1, h2⟩, h⟩

/-- The recorded segments come from the rules: each one has the extent of a
match of a rule and the colour the rule gives for the matched substring. -/
theorem foldl_applyMatch_from_rule (text : wxString) (rule : SyntaxRule)
    (Q : ColoredSegment → Prop)
    (hQ : ∀ m ∈ rule.pattern text, Q ⟨m.1, m.2, rule.colorFunc (wxString.Mid m.1 m.2 text)⟩)
    (ms : List (Nat × Nat)) :
    ∀ acc : List ColoredSegment × List Bool, (∀ m ∈ ms, m ∈ rule.pattern text) →
      (∀ seg ∈ acc.1, Q seg) → ∀ seg ∈ (ms.foldl (applyMatch text rule) acc).1, Q seg := by
  induction ms with
  | nil => intro acc _ h; exact h
  | cons m rest ih =>
    intro acc hms h
    rw [List.foldl_cons]
    apply ih _ (fun x hx => hms x (List.mem_cons_of_mem _ hx))
    intro seg hseg
    unfold applyMatch at hseg
    split at hseg
    · exact h seg hseg
    · simp only [List.mem_append, List.mem_singleton] at hseg
      rcases hseg with h1 | h1
      · exact h seg h1
      · subst h1
        exact hQ m (hms m (by simp))

theorem foldl_applyRule_from_rule (text : wxString) (all : List SyntaxRule)
    (rules : List SyntaxRule) :
    ∀ acc : List ColoredSegment × List Bool, (∀ rule ∈ rules, rule ∈ all) →
      (∀ seg ∈ acc.1, ∃ rule ∈ all, ∃ m ∈ rule.pattern text,
        seg = ⟨m.1, m.2, rule.colorFunc (wxString.Mid m.1 m.2 text)⟩) →
      ∀ seg ∈ (rules.foldl (applyRule text) acc).1, ∃ rule ∈ all, ∃ m ∈ rule.pattern text,
        seg = ⟨m.1, m.2, rule.colorFunc (wxString.Mid m.1 m.2 text)⟩ := by
  induction rules with
  | nil => intro acc _ h; exact h
  | cons rule rest ih =>
    intro acc hsub h
    rw [List.foldl_cons]
    apply ih _ (fun x hx => hsub x (List.mem_cons_of_mem _ hx))
    unfold applyRule
    exact foldl_applyMatch_from_rule text rule _
      (fun m hm => ⟨rule, hsub rule (by simp), m, hm, rfl⟩) _ acc (fun m hm => hm) h

/-- C27: with non-empty matches inside the text, every segment of the result
whose colour is not the default one has exactly the start and the length of a
match of a rule and the colour that the rule's colour function gives for the
whole matched substring; and at any point of the scan (after the rules `pre` and
the matches `before` of the current rule), a match that shares a character with a
segment recorded so far leaves the recorded segments and the claim mask as they
are: it produces no segment and claims none of its characters. -/
theorem no_partial_claiming (s : SyntaxTextCtrl)
    (hrules : ∀ rule ∈ s.m_syntaxRules, ∀ m ∈ rule.pattern s.m_text,
      0 < m.2 ∧ m.1 + m.2 ≤ s.m_text.length) :
    (∀ seg ∈ GetColoredSegments s, seg.color ≠ s.m_defaultTextColor →
        ∃ rule ∈ s.m_syntaxRules, ∃ m ∈ rule.pattern s.m_text,
          seg = ⟨m.1, m.2, rule.colorFunc (wxString.Mid m.1 m.2 s.m_text)⟩) ∧
      (∀ (pre post : List SyntaxRule) (rule : SyntaxRule) (before after : List (Nat × Nat))
          (m : Nat × Nat),
        s.m_syntaxRules = pre ++ rule :: post → rule.pattern s.m_text = before ++ m :: after →
        (∃ seg ∈ (before.foldl (applyMatch s.m_text rule)
              (pre.foldl (applyRule s.m_text)
                ([], List.replicate s.m_text.length false))).1,
            ∃ i, seg.start ≤ i ∧ i < seg.start + seg.length ∧ m.1 ≤ i ∧ i < m.1 + m.2) →
        applyMatch s.m_text rule
            (before.foldl (applyMatch s.m_text rule)
              (pre.foldl (applyRule s.m_text) ([], List.replicate s.m_text.length false))) m
          = before.foldl (applyMatch s.m_text rule)
              (pre.foldl (applyRule s.m_text) ([], List.replicate s.m_text.length false))) := by
  constructor
  · intro seg hseg hcolor
    rcases GetColoredSegments_origin s seg hseg with h | h
    · exact foldl_applyRule_from_rule s.m_text s.m_syntaxRules s.m_syntaxRules _
        (fun r hr => hr) (by intro x hx; simp at hx) seg h
    · exact absurd h.1 hcolor
  · intro pre post rule before after m hsplit hms hshare
    have hpre : Collected s.m_text.length
        (pre.foldl (applyRule s.m_text) ([], List.replicate s.m_text.length false)) :=
      Collected_foldl_applyRule s.m_text pre _ (Collected_init s.m_text)
        (fun r hr => hrules r (by rw [hsplit]; exact List.mem_append_left _ hr))
    have hbefore : Collected s.m_text.length
        (before.foldl (applyMatch s.m_text rule)
          (pre.foldl (applyRule s.m_text) ([], List.replicate s.m_text.length false))) :=
      Collected_foldl_applyMatch s.m_text rule before _ hpre
        (fun x hx => hrules rule (by rw [hsplit]; simp) x
          (by rw [hms]; exact List.mem_append_left _ hx))
    obtain ⟨seg, hseg, i, h1, h2, h3, h4⟩ := hshare
    have hclaimed := hbefore.claimed seg hseg i h1 h2
    have hskip := alreadyMatched_eq_true_of _ m.1 m.2 i h3 h4 hclaimed
    generalize before.foldl (applyMatch s.m_text rule)
      (pre.foldl (applyRule s.m_text) ([], List.replicate s.m_text.length false)) = acc at hskip
    unfold applyMatch
    rw [if_pos hskip]

/-- Witness of C27: in `let x` the identifier match (0,3) shares its characters
with the keyword segment recorded before, so it changes neither the recorded
segments nor the mask; the only non-default segments of the result are the
keyword (0,3) in blue and the identifier (4,1) in green. -/
theorem no_partial_claiming_witness :
    GetColoredSegments overlapCtrl = [⟨0, 3, blue⟩, ⟨3, 1, wxBLACK⟩, ⟨4, 1, green⟩] ∧
      applyMatch overlapCtrl.m_text identifierRule
          (([] : List (Nat × Nat)).foldl (applyMatch overlapCtrl.m_text identifierRule)
            ([keywordRule].foldl (applyRule overlapCtrl.m_text)
              ([], List.replicate overlapCtrl.m_text.length false))) (0, 3)
        = ([] : List (Nat × Nat)).foldl (applyMatch overlapCtrl.m_text identifierRule)
            ([keywordRule].foldl (applyRule overlapCtrl.m_text)
              ([], List.replicate overlapCtrl.m_text.length false)) :=
  have hrules : ∀ rule ∈ overlapCtrl.m_syntaxRules, ∀ m ∈ rule.pattern overlapCtrl.m_text,
      0 < m.2 ∧ m.1 + m.2 ≤ overlapCtrl.m_text.length := by
    intro rule hrule m hm
    simp only [overlapCtrl, List.mem_cons, List.mem_singleton, List.not_mem_nil, or_false]
      at hrule
    rcases hrule with h | h
    · subst h
      simp only [keywordRule, List.mem_singleton] at hm
      subst hm
      decide
    · subst h
      simp only [identifierRule, List.mem_cons, List.mem_singleton, List.not_mem_nil, or_false]
        at hm
      rcases hm with h | h <;> subst h <;> decide
  ⟨by decide,
    (no_partial_claiming overlapCtrl hrules).2 [keywordRule] [] identifierRule [] [(4, 1)] (0, 3)
      rfl rfl ⟨⟨0, 3, blue⟩, by decide, 0, by decide, by decide, by decide, by decide⟩⟩

end SyntaxTextCtrl

namespace SyntaxTextCtrl

/-! ### Applying EnsureCursorVisible again -/

/-- C31 (as stated, refuted): with a client area of 10 pixels the visible width
is -5; for the text `hello` with the cursor at 2 (16 pixels) and the scroll
offset 0, one application leaves the offset 21 and a second one leaves 16. -/
theorem EnsureCursorVisible_narrow_not_idempotent :
    narrowHost.GetClientWidth - shortHistoryCtrl.m_leftMargin - 10 = -5 ∧
      shortHistoryCtrl.m_scrollOffset = 0 ∧
      (EnsureCursorVisible narrowHost shortHistoryCtrl).m_scrollOffset = 21 ∧
      (EnsureCursorVisible narrowHost
        (EnsureCursorVisible narrowHost shortHistoryCtrl)).m_scrollOffset = 16 ∧
      (EnsureCursorVisible narrowHost
        (EnsureCursorVisible narrowHost shortHistoryCtrl)).m_scrollOffset
        ≠ (EnsureCursorVisible narrowHost shortHistoryCtrl).m_scrollOffset := by
  refine ⟨by decide, by decide, by decide, by decide, by decide⟩

/-- C31 (amended): when the visible width is not negative, applying
EnsureCursorVisible a second time (same host, so same cursor pixel position and
visible width) gives the state of the first application, whatever the scroll
offset and the cursor pixel position are; and when scroll ≥ 0 and
0 ≤ cursor_px - scroll ≤ visible_width hold already, the state, and with it the
scroll offset, is left as it is. -/
theorem EnsureCursorVisible_idempotent (dc : Host) (s : SyntaxTextCtrl)
    (hvw : 0 ≤ dc.GetClientWidth - s.m_leftMargin - 10) :
    EnsureCursorVisible dc (EnsureCursorVisible dc s) = EnsureCursorVisible dc s ∧
      (EnsureCursorVisible dc (EnsureCursorVisible dc s)).m_scrollOffset
        = (EnsureCursorVisible dc s).m_scrollOffset ∧
      (0 ≤ s.m_scrollOffset →
        0 ≤ dc.GetTextExtentWidth (wxString.Mid 0 s.m_cursorPos s.m_text) - s.m_scrollOffset →
        dc.GetTextExtentWidth (wxString.Mid 0 s.m_cursorPos s.m_text) - s.m_scrollOffset
          ≤ dc.GetClientWidth - s.m_leftMargin - 10 →
        EnsureCursorVisible dc s = s ∧
          (EnsureCursorVisible dc s).m_scrollOffset = s.m_scrollOffset) := by
  have hscroll : (EnsureCursorVisible dc (EnsureCursorVisible dc s)).m_scrollOffset
      = (EnsureCursorVisible dc s).m_scrollOffset := by
    simp only [EnsureCursorVisible]
    split_ifs <;> omega
  have hkeep : 0 ≤ s.m_scrollOffset →
      0 ≤ dc.GetTextExtentWidth (wxString.Mid 0 s.m_cursorPos s.m_text) - s.m_scrollOffset →
      dc.GetTextExtentWidth (wxString.Mid 0 s.m_cursorPos s.m_text) - s.m_scrollOffset
        ≤ dc.GetClientWidth - s.m_leftMargin - 10 →
      (EnsureCursorVisible dc s).m_scrollOffset = s.m_scrollOffset := by
    intro h0 h1 h2
    simp only [EnsureCursorVisible]
    split_ifs <;> omega
  refine ⟨?_, hscroll, ?_⟩
  · have h1 : EnsureCursorVisible dc (EnsureCursorVisible dc s)
        = { EnsureCursorVisible dc s with
            m_scrollOffset := (EnsureCursorVisible dc (EnsureCursorVisible dc s)).m_scrollOffset } :=
      rfl
    rw [h1, hscroll]
  · intro h0 h1 h2
    refine ⟨?_, hkeep h0 h1 h2⟩
    have h3 : EnsureCursorVisible dc s
        = { s with m_scrollOffset := (EnsureCursorVisible dc s).m_scrollOffset } := rfl
    rw [h3, hkeep h0 h1 h2]

/-- Witness of C31: fixed-pitch host with a visible width of 185, text `hello`,
cursor at 2 (16 pixels). From the scroll offset 50 the first application leaves
16 and the second one too; from the scroll offset 10, where the cursor is in
view already, the offset stays 10. -/
theorem EnsureCursorVisible_idempotent_witness :
    (0 : Int) ≤ monoHost.GetClientWidth - shortHistoryCtrl.m_leftMargin - 10 ∧
      (EnsureCursorVisible monoHost { shortHistoryCtrl with m_scrollOffset := 50 }).m_scrollOffset
        = 16 ∧
      (EnsureCursorVisible monoHost
          (EnsureCursorVisible monoHost
            { shortHistoryCtrl with m_scrollOffset := 50 })).m_scrollOffset
        = (EnsureCursorVisible monoHost
            { shortHistoryCtrl with m_scrollOffset := 50 }).m_scrollOffset ∧
      (EnsureCursorVisible monoHost { shortHistoryCtrl with m_scrollOffset := 10 }).m_scrollOffset
        = ({ shortHistoryCtrl with m_scrollOffset := 10 } : SyntaxTextCtrl).m_scrollOffset :=
  ⟨by decide, by decide,
    (EnsureCursorVisible_idempotent monoHost { shortHistoryCtrl with m_scrollOffset := 50 }
      (by decide)).2.1,
    ((EnsureCursorVisible_idempotent monoHost { shortHistoryCtrl with m_scrollOffset := 10 }
      (by decide)).2.2 (by decide) (by decide) (by decide)).2⟩

end SyntaxTextCtrl
